import Mathlib

/-!
D2-MAC packet decoder.

A shallow embedding of `d2mac-decoder.c` and a verification of its decoding
pipeline: the scrambler sequence generator (`_prbs`, `prbs_init`), the sample
classifier (`get_polarity`, `get_bit`), the line synchroniser (`find_hsync`),
the bit packer (`_rbits`), the line sampler (`get_line_bits`), the packet
deinterleaver (`deinterleave`) and the frame decoder (`decode_frame`: its line
loop, its packet splitter, the header fields and the payload loops).

Conventions of the embedding.

* `uint8_t`, `uint16_t`, `uint64_t` values are natural numbers; every store into
  such an object is reduced modulo `2^8`, `2^16`, `2^64`.
* C `int` values are integers; the rasters considered have fewer than `2^31`
  samples, so the index arithmetic of the source does not overflow.
* A byte buffer (`uint8_t *`) and the raster (`uint32_t *`) are lists. A read or
  write of the raster, of the bitstream buffer or of the scrambler table at an
  index outside the object makes the embedded function return `none`.
-/

namespace D2Mac

/-! ## Constants of the source -/

/-- The macro `_PRBS_POLY`, the seed of the scrambler table. -/
abbrev _PRBS_POLY : Nat := 0x7FFF

/-- The macro `MAC_PACKETS`. -/
abbrev MAC_PACKETS : Nat := 82

/-- The macro `MAC_LINE_BITS`. -/
abbrev MAC_LINE_BITS : Nat := 751

/-- The macro `MAC_SAMPLE_RATE`. -/
abbrev MAC_SAMPLE_RATE : Nat := 20250000

/-- The macro `D2MAC_SAMPLE_RATE`. -/
abbrev D2MAC_SAMPLE_RATE : Nat := 10125000

/-- The macro `MAC_PACKET_BYTES`. -/
abbrev MAC_PACKET_BYTES : Nat := 91

/-- The macro `OVERSAMPLING`. -/
abbrev OVERSAMPLING : Nat := 1

/-- The macro `TOP_LINE`. -/
abbrev TOP_LINE : Nat := 1

/-- The macro `SPS` at the places where it stands alone (`pos += SPS`): the text
`MAC_SAMPLE_RATE / D2MAC_SAMPLE_RATE * OVERSAMPLING`, evaluated left to right. -/
abbrev SPS : Nat := MAC_SAMPLE_RATE / D2MAC_SAMPLE_RATE * OVERSAMPLING

/-! ## Loops and memory -/

/-- A loop whose body may fail, run `n` times: `iterM body n s` threads the
state `s` through `n` successive runs of `body`. -/
def iterM {σ : Type} (body : σ → Option σ) : Nat → σ → Option σ
  | 0, s => some s
  | n + 1, s => (body s).bind (iterM body n)

/-- Bit `p` of a byte buffer, bits numbered `p = 8 * byteIndex + bitIndex` with
bit 0 the least significant bit of a byte. -/
def bufBit (buf : List Nat) (p : Nat) : Bool :=
  (buf.getD (p / 8) 0).testBit (p % 8)

/-- The value `~b` of the 32-bit `int` that a `uint8_t` `b` is promoted to, as
its two's-complement bit pattern. -/
def bnot32 (b : Nat) : Nat := 2 ^ 32 - 1 - b

/-- The conversion of a `uint64_t` to `int` (the assignment
`hoffset = find_hsync(...)`): the low 32 bits, read as two's complement. -/
def int_of_uint64 (r : Nat) : Int :=
  if r % 2 ^ 32 < 2 ^ 31 then ((r % 2 ^ 32 : Nat) : Int) else ((r % 2 ^ 32 : Nat) : Int) - 2 ^ 32

/-- The conversion of an `int` to `uint64_t` (the `return (j - 1)` of
`find_hsync`). -/
def uint64_of_int (v : Int) : Nat := (v % 2 ^ 64).toNat

/-- The read `frame[f]` of the raster at the `int` index `f`. -/
def readFrame (frame : List Nat) (f : Int) : Option Nat :=
  if 0 ≤ f then frame[f.toNat]? else none

/-! ## Scrambler sequence generator -/

/-- The function `_prbs`: the returned bit and the new value of `*x`. -/
def _prbs (x : Nat) : Nat × Nat :=
  let b := (x ^^^ (x >>> 14)) &&& 1
  (b, ((x >>> 1) ||| (b <<< 14)) % 2 ^ 16)

/-- The inner loop body of `prbs_init`: `_prbs(&prbs[i])`. -/
def prbs_advance (i : Nat) (t : List Nat) : List Nat :=
  t.set i (_prbs (t.getD i 0)).2

/-- The outer loop body of `prbs_init` at index `i`. -/
def prbs_init_step (t : List Nat) (i : Nat) : List Nat :=
  (prbs_advance i)^[648] (t.set i (t.getD (i - 1) 0))

/-- The function `prbs_init`: the contents of the global table `prbs[625]`
(zero-initialised) after the call. -/
def prbs_init : List Nat :=
  (List.range' 1 624).foldl prbs_init_step ((List.replicate 625 0).set 0 _PRBS_POLY)

/-! ## Sample classifier -/

/-- The function `get_polarity`. -/
def get_polarity (b : Int) : Int :=
  let grey_low : Int := 0x55
  let grey_high : Int := 0xAA
  if b ≥ 0 ∧ b ≤ grey_low then -1
  else if b > grey_low ∧ b ≤ grey_high then 0
  else if b > grey_high ∧ b ≤ 0xFF then 1
  else 0

/-- The function `get_bit`: `!p ? p : 1`. -/
def get_bit (p : Int) : Int :=
  if p = 0 then p else 1

/-- The three statements that turn the raster sample `v = frame[f]` into a bit:
`get_bit(get_polarity(frame[f] & 0xFF))`. -/
def sample_bit (v : Nat) : Int :=
  get_bit (get_polarity ((v &&& 0xFF : Nat) : Int))

/-! ## Line synchroniser -/

/-- The body of the inner loop of `find_hsync` at column `j`, on the state
`(pos, byte)` and the counter `i`; `bit & 1` is `bit % 2`. -/
def hsync_sample (line width height : Int) (frame : List Nat) (j : Nat)
    (s : Nat × Nat) (i : Nat) : Option (Nat × Nat) :=
  let f : Int := (j : Int) + (s.1 : Int) + width * (height - line)
  match readFrame frame f with
  | none => none
  | some v => some (s.1 + SPS, (s.2 ||| (((sample_bit v) % 2).toNat <<< i)) % 2 ^ 8)

/-- The inner loop of `find_hsync` at column `j`: the 6-bit word `byte`. -/
def hsync_word (line width height : Int) (frame : List Nat) (j : Nat) : Option Nat :=
  ((List.range 6).foldlM (hsync_sample line width height frame j) (0, 0)).map Prod.snd

/-- The test `byte == 0x34 || byte == 0x0B`. -/
def is_sync (byte : Nat) : Bool := byte == 0x34 || byte == 0x0B

/-- The outer loop of `find_hsync` with `n` columns left to scan, at column `j`
(`n = width - 12 - j`); the result is the value of `j` on leaving the loop. -/
def hsync_scan (line width height : Int) (frame : List Nat) : Nat → Nat → Option Nat
  | 0, j => some j
  | n + 1, j =>
    match hsync_word line width height frame j with
    | none => none
    | some byte => if is_sync byte then some j else hsync_scan line width height frame n (j + 1)

/-- The function `find_hsync`; `OVERSAMPLING` is 1, so the adjusted line
`line * OVERSAMPLING - (OVERSAMPLING / 2)` is computed as written. -/
def find_hsync (line width height : Int) (frame : List Nat) : Option Nat :=
  let line1 : Int := line * OVERSAMPLING - ((OVERSAMPLING / 2 : Nat) : Int)
  (hsync_scan line1 width height frame (width - 12).toNat 0).map
    (fun (j : Nat) => uint64_of_int ((j : Int) - 1))

/-- The 6-bit word at column `j` of row `row` as the specification words it:
the bits of the samples at columns `j, j + 2, ..., j + 10`, sample `i` at bit
`i`. -/
def sync_word_at (width : Nat) (frame : List Nat) (row j : Nat) : Nat :=
  ((List.range 6).map
    (fun i => (sample_bit (frame.getD (width * row + j + 2 * i) 0)).toNat * 2 ^ i)).sum

/-! ## Bit packer -/

/-- The loop body of `_rbits` with mask `m`, on the state
`(data, offset, bits)`. -/
def _rbits_step (m : Nat) (s : List Nat × Nat × Nat) : Option (List Nat × Nat × Nat) :=
  let data := s.1
  let offset := s.2.1
  let bits := s.2.2
  let b := (1 <<< (offset &&& 7)) % 2 ^ 8
  match data[offset >>> 3]? with
  | none => none
  | some v =>
    let v1 := if bits &&& m ≠ 0 then (v ||| b) % 2 ^ 8 else (v &&& bnot32 b) % 2 ^ 8
    some (data.set (offset >>> 3) v1, offset + 1, (bits <<< 1) % 2 ^ 64)

/-- The function `_rbits`: the buffer after the call and the returned
offset. -/
def _rbits (data : List Nat) (offset bits nbits : Nat) : Option (List Nat × Nat) :=
  let m := (1 <<< (nbits - 1)) % 2 ^ 64
  (iterM (_rbits_step m) nbits (data, offset, bits)).map (fun s => (s.1, s.2.1))

/-! ## Line sampler -/

/-- The bit stream `bit ^ _prbs(&poly)` of `get_line_bits`: each bit of the
sequence XORed with the next output of `_prbs`, started from `poly`. -/
def descramble : Nat → List Nat → List Nat
  | _, [] => []
  | poly, bit :: rest => (bit ^^^ (_prbs poly).1) :: descramble (_prbs poly).2 rest

/-- The raw bits of a line, before descrambling: the bits of the `n` samples at
the positions `pos, pos + SPS, pos + 2 * SPS, ...` of row `height - line`. -/
def line_samples (line width height : Int) (frame : List Nat) : Nat → Int → List Nat
  | 0, _ => []
  | n + 1, pos =>
    (sample_bit (frame.getD (pos + width * (height - line)).toNat 0)).toNat ::
      line_samples line width height frame n (pos + (SPS : Int))

/-- The loop body of `get_line_bits`, on the state `(data, pos, poly, offset)`.
The sampled `bit` is 0 or 1, so the `int` value `bit ^ _prbs(&poly)` passed as
`uint64_t` is the XOR of two naturals. -/
def get_line_bits_step (line width height : Int) (frame : List Nat)
    (s : List Nat × Int × Nat × Nat) : Option (List Nat × Int × Nat × Nat) :=
  let data := s.1
  let pos := s.2.1
  let poly := s.2.2.1
  let offset := s.2.2.2
  let f : Int := pos + width * (height - line)
  match readFrame frame f with
  | none => none
  | some v =>
    let bit := sample_bit v
    match _rbits data offset (bit.toNat ^^^ (_prbs poly).1) 1 with
    | none => none
    | some r => some (r.1, pos + (SPS : Int), (_prbs poly).2, r.2)

/-- The function `get_line_bits` with the scrambler table `prbs`: the buffer
after the call and the returned offset. The diagnostic print is left out. -/
def get_line_bits (prbs : List Nat) (data : List Nat) (line width height pos : Int)
    (frame : List Nat) (offset : Nat) : Option (List Nat × Nat) :=
  match readFrame prbs ((TOP_LINE : Int) + line - 2) with
  | none => none
  | some poly =>
    let line1 : Int := line * OVERSAMPLING - ((OVERSAMPLING / 2 : Nat) : Int)
    (iterM (get_line_bits_step line1 width height frame) 99 (data, pos, poly, offset)).map
      (fun s => (s.1, s.2.2.2))

/-! ## Packet deinterleaver -/

/-- The loop body of `deinterleave` at counter `i`, on the state
`(pkt, tmp, d)`. -/
def deinterleave_step (s : List Nat × List Nat × Nat) (i : Nat) : List Nat × List Nat × Nat :=
  let pkt := s.1
  let tmp := s.2.1
  let d := s.2.2
  let c := i >>> 3
  (pkt.set c (((pkt.getD c 0 >>> 1) ||| (tmp.getD d 0 <<< 7)) % 2 ^ 8),
   tmp.set d ((tmp.getD d 0 >>> 1) % 2 ^ 8),
   if d + 1 = 94 then 0 else d + 1)

/-- The function `deinterleave`: the contents of `pkt` after the call. -/
def deinterleave (pkt : List Nat) : List Nat :=
  ((List.range (MAC_LINE_BITS + 1)).foldl deinterleave_step (pkt, pkt.take 94, 0)).1


/-! ## Sample rasters -/

/-- A raster of 14 columns and 2 rows, grey (`0x80`) except for three white
samples in row 1 that spell the sync word `0x34` on the sample grid starting at
column 1 (columns 5, 9 and 11 carry bits 2, 4 and 5). -/
def sync_raster : List Nat :=
  List.replicate 14 0x80 ++
    [0x80, 0x80, 0x80, 0x80, 0x80, 0xFF, 0x80, 0x80, 0x80, 0xFF, 0x80, 0xFF, 0x80, 0x80]

/-- A grey raster of 13 columns and 2 rows; every sample decodes to bit 0. -/
def grey_raster : List Nat := List.replicate 26 0x80

/-! ## Frame decoder: the line loop -/

/-- The start position `hoffset + (6 * SPS) + (SPS/2)` that `decode_frame`
passes to `get_line_bits`, with the macro `SPS` expanded textually:
`hoffset + (6 * MAC_SAMPLE_RATE / D2MAC_SAMPLE_RATE * OVERSAMPLING) +
(MAC_SAMPLE_RATE / D2MAC_SAMPLE_RATE * OVERSAMPLING/2)`. -/
def start_pos (hoffset : Int) : Int :=
  hoffset + ((6 * MAC_SAMPLE_RATE / D2MAC_SAMPLE_RATE * OVERSAMPLING : Nat) : Int) +
    ((MAC_SAMPLE_RATE / D2MAC_SAMPLE_RATE * OVERSAMPLING / 2 : Nat) : Int)

/-- The raster index `f = pos + (width * (height - line))` of `get_line_bits` in
pass `k` of its loop, `pos` having been advanced by `SPS` in each earlier
pass. -/
def sample_index (line width height pos : Int) (k : Nat) : Int :=
  pos + (SPS : Int) * (k : Int) + width * (height - line)

/-- The body of the zero-fill loop of `decode_frame` for one skipped line: 99
calls `_rbits(data, offset, 0, 1)`, on the state `(data, offset)`. -/
def zero_line (s : List Nat × Nat) : Option (List Nat × Nat) :=
  iterM (fun t => _rbits t.1 t.2 0 1) 99 s

/-- The body of the line loop of `decode_frame` at line `l`, on the state
`(data, offset)`. The offset is an `int` in `decode_frame` and a `uint64_t` in
`get_line_bits`; it stays below `2^31` and is kept as a natural number. -/
def decode_line (prbs frame : List Nat) (width height : Int) (s : List Nat × Nat) (l : Nat) :
    Option (List Nat × Nat) :=
  match find_hsync (l : Int) width height frame with
  | none => none
  | some r =>
    get_line_bits prbs s.1 (l : Int) width height (start_pos (int_of_uint64 r)) frame s.2

/-- The two loops of `decode_frame` that fill the bitstream buffer `data`: the
zero-fill loop over the lines `1 .. TOP_LINE - 1` (none), then the line loop
over `l = 1 .. height / OVERSAMPLING - 1`. The result is the buffer and the
write offset after the loops. -/
def decode_lines (prbs data frame : List Nat) (width height : Int) : Option (List Nat × Nat) :=
  match (List.range' 1 (TOP_LINE - 1)).foldlM (fun s _ => zero_line s) (data, 0) with
  | none => none
  | some s0 =>
    (List.range' 1 ((height / (OVERSAMPLING : Int)).toNat - 1)).foldlM
      (decode_line prbs frame width height) s0

/-- The stream offsets written while sampling data line `l` in the line loop:
the 99 offsets from `99 * (l - 1)`. -/
def line_offsets (l : Nat) : List Nat := List.range' (99 * (l - 1)) 99

/-- The buffer byte indices written while sampling data line `l`: `offset >> 3`
for each stream offset of the line. -/
def line_bytes (l : Nat) : List Nat := (line_offsets l).map (fun p => p >>> 3)

/-- Successive single-bit calls `_rbits(data, offset, b, 1)` that store the bits
of a list at the stream offsets from `offset` on. -/
def write_bits : List Nat → List Nat → Nat → Option (List Nat)
  | data, [], _ => some data
  | data, b :: bs, offset =>
    match _rbits data offset b 1 with
    | none => none
    | some r => write_bits r.1 bs r.2

/-! ## Frame decoder: the packet splitter -/

/-- The body of the inner loop of the splitter, on the state
`(data, pkt, offset, poffset)`: the destructive read of one bit of `data` and
its `_rbits` write into `pkt`. -/
def split_step (s : List Nat × List Nat × Nat × Nat) :
    Option (List Nat × List Nat × Nat × Nat) :=
  let data := s.1
  let pkt := s.2.1
  let offset := s.2.2.1
  let poffset := s.2.2.2
  match data[offset >>> 3]? with
  | none => none
  | some v =>
    let bit := v &&& 1
    match _rbits pkt poffset bit 1 with
    | none => none
    | some r => some (data.set (offset >>> 3) ((v >>> 1) % 2 ^ 8), r.1, offset + 1, r.2)

/-- The inner loop of the splitter for one packet, on the state
`(data, pkt, offset)`: `MAC_LINE_BITS` bits are moved from `data` to `pkt`. -/
def split_packet (s : List Nat × List Nat × Nat) : Option (List Nat × List Nat × Nat) :=
  (iterM split_step MAC_LINE_BITS (s.1, s.2.1, s.2.2, 0)).map
    (fun t => (t.1, t.2.1, t.2.2.1))

/-- One pass of the packet loop of `decode_frame`, on the state
`(data, pkt, offset, packets)`: the packet is split off and deinterleaved in
place, and the deinterleaved buffer is recorded as the next packet. -/
def packet_pass (s : List Nat × List Nat × Nat × List (List Nat)) :
    Option (List Nat × List Nat × Nat × List (List Nat)) :=
  match split_packet (s.1, s.2.1, s.2.2.1) with
  | none => none
  | some t => some (t.1, deinterleave t.2.1, t.2.2, s.2.2.2 ++ [deinterleave t.2.1])

/-- The packet loop of `decode_frame` over the bitstream buffer `data` and the
packet buffer `pkt`: the deinterleaved packets, in order. -/
def split_packets (data pkt : List Nat) : Option (List (List Nat)) :=
  (iterM packet_pass MAC_PACKETS (data, pkt, 0, [])).map (fun s => s.2.2.2)

/-- The address `(pkt[1] & 0x03) << 8 | pkt[0]` of a packet. -/
def packet_address (pkt : List Nat) : Nat :=
  ((pkt.getD 1 0 &&& 0x03) <<< 8) ||| pkt.getD 0 0

/-- The continuity `pkt[1] >> 2 & 0x03` of a packet. -/
def packet_continuity (pkt : List Nat) : Nat :=
  (pkt.getD 1 0 >>> 2) &&& 0x03

/-- The values of `i` of the payload loop `for (i = 2; i < MAC_PACKET_BYTES - 2;
i += 16)` from `i` on, with `n` passes at most. -/
def payload_rows : Nat → Nat → List Nat
  | 0, _ => []
  | n + 1, i => if i < MAC_PACKET_BYTES - 2 then i :: payload_rows n (i + 16) else []

/-- The pairs `(i, j)` visited by the payload loops of `decode_frame`. -/
def payload_pairs : List (Nat × Nat) :=
  (payload_rows MAC_PACKET_BYTES 2).flatMap (fun i => (List.range 16).map (fun j => (i, j)))

/-- The payload byte `((pkt[i + j] >> 7 & 1) | (pkt[i + 1 + j] << 1)) & 0xFF` of
the 94-byte packet buffer; a read outside the buffer gives `none`. -/
def payload_byte (pkt : List Nat) (i j : Nat) : Option Nat :=
  match pkt[i + j]?, pkt[i + 1 + j]? with
  | some a, some b => some ((((a >>> 7) &&& 1) ||| (b <<< 1)) &&& 0xFF)
  | _, _ => none

/-- The payload bytes of a packet as the payload loops read them. -/
def packet_payload (pkt : List Nat) : Option (List Nat) :=
  payload_pairs.mapM (fun p => payload_byte pkt p.1 p.2)

/-- The function `decode_frame` on the scrambler table `prbs`, the two
allocated buffers `data` (`12 * height` bytes) and `pkt` (94 bytes) with their
initial contents, and the raster: for each packet its address, continuity and
payload bytes. -/
def decode_frame (prbs data pkt frame : List Nat) (width height : Int) :
    Option (List (Nat × Nat × List Nat)) :=
  match decode_lines prbs data frame width height with
  | none => none
  | some s =>
    match split_packets s.1 pkt with
    | none => none
    | some ps =>
      ps.mapM (fun p =>
        (packet_payload p).map (fun bytes => (packet_address p, packet_continuity p, bytes)))

/-! ## The transmitter side -/

/-- Modelled from the spec: the transmitter-side bit interleave, which the
repository does not contain. It is the inverse bit transposition of
`deinterleave`: bit `8 * d + r` of the result is bit `94 * r + d` of the
argument, for `r` in 0..7 and `d` in 0..93. -/
def interleave (v : List Nat) : List Nat :=
  (List.range 94).map (fun d =>
    ((List.range 8).map (fun r => (bufBit v (94 * r + d)).toNat * 2 ^ r)).sum)

/-- A raster of 209 columns and 2 rows, grey except for three white samples in
row 1 that spell the sync word `0x34` on the sample grid starting at column 0;
209 is the least width at which the 99 data samples of that line stay in its
row. -/
def wide_raster : List Nat :=
  List.replicate 209 0x80 ++
    ([0x80, 0x80, 0x80, 0x80, 0xFF, 0x80, 0x80, 0x80, 0xFF, 0x80, 0xFF] ++
      List.replicate 198 0x80)

/-! ## The scrambler sequence generator -/

theorem xor_bits (a b : Nat) (ha : a < 2) (hb : b < 2) : a ^^^ b = (a + b) % 2 := by
  have h : ∀ a, a < 2 → ∀ b, b < 2 → a ^^^ b = (a + b) % 2 := by decide
  exact h a ha b hb

theorem prbs_bit_eq (x : Nat) : (_prbs x).1 = (x % 2) ^^^ (x / 2 ^ 14 % 2) := by
  have h : (_prbs x).1 = (x ^^^ (x >>> 14)) % 2 := by
    simp [_prbs, Nat.and_one_is_mod]
  rw [h, Nat.xor_mod_two_eq, Nat.shiftRight_eq_div_pow,
    xor_bits _ _ (Nat.mod_lt _ (by decide)) (Nat.mod_lt _ (by decide))]
  omega

theorem prbs_bit_le (x : Nat) : (_prbs x).1 ≤ 1 := by
  rw [prbs_bit_eq, xor_bits _ _ (Nat.mod_lt _ (by decide)) (Nat.mod_lt _ (by decide))]
  omega

theorem prbs_state_def (x : Nat) :
    (_prbs x).2 = ((x >>> 1) ||| ((_prbs x).1 <<< 14)) % 2 ^ 16 := rfl

theorem prbs_bit_testBit (x : Nat) :
    (_prbs x).1.testBit 0 = xor (x.testBit 0) (x.testBit 14) := by
  have h : (_prbs x).1 = (x ^^^ (x >>> 14)) &&& 1 := rfl
  rw [h, Nat.testBit_and, Nat.testBit_xor, Nat.testBit_shiftRight]
  simp

theorem prbs_state_eq (x : Nat) (hx : x < 2 ^ 15) :
    (_prbs x).2 = x / 2 + 2 ^ 14 * (_prbs x).1 := by
  have hb := prbs_bit_le x
  have hlt : x / 2 < 2 ^ 14 := by omega
  have hor : (x >>> 1) ||| ((_prbs x).1 <<< 14) = 2 ^ 14 * (_prbs x).1 + x / 2 := by
    rw [Nat.mul_add_lt_is_or hlt, Nat.or_comm, Nat.shiftLeft_eq, Nat.mul_comm,
      Nat.shiftRight_eq_div_pow, pow_one]
  rw [prbs_state_def, hor, Nat.mod_eq_of_lt (by omega)]
  omega

theorem prbs_state_lt (x : Nat) (hx : x < 2 ^ 15) : (_prbs x).2 < 2 ^ 15 := by
  have hb := prbs_bit_le x
  have hs := prbs_state_eq x hx
  omega

/-- C2. For every 15-bit state `x`, one call of `_prbs` leaves the state equal
to `(x >> 1) + 2^14 * (bit0(x) XOR bit14(x))`: bits 0..13 of the new state are
bits 1..14 of `x`, the new top bit is bit 0 XOR bit 14, and the new state is
below `2^15` again. -/
theorem prbs_state_update (x : Nat) (hx : x < 2 ^ 15) :
    (_prbs x).2 = x / 2 + 2 ^ 14 * ((x % 2) ^^^ (x / 2 ^ 14 % 2)) ∧
    (∀ i, i < 14 → (_prbs x).2.testBit i = x.testBit (i + 1)) ∧
    (_prbs x).2.testBit 14 = xor (x.testBit 0) (x.testBit 14) ∧
    (_prbs x).2 < 2 ^ 15 := by
  have hs := prbs_state_eq x hx
  have h15 : x.testBit 15 = false := Nat.testBit_lt_two_pow hx
  refine ⟨by rw [hs, prbs_bit_eq], ?_, ?_, prbs_state_lt x hx⟩
  · intro i hi
    rw [prbs_state_def, Nat.testBit_mod_two_pow, Nat.testBit_or, Nat.testBit_shiftRight,
      Nat.testBit_shiftLeft, Nat.add_comm 1 i]
    have hi16 : i < 16 := by omega
    have hi14 : ¬ i ≥ 14 := by omega
    simp [hi16, hi14]
  · rw [prbs_state_def, Nat.testBit_mod_two_pow, Nat.testBit_or, Nat.testBit_shiftRight,
      Nat.testBit_shiftLeft, h15, prbs_bit_testBit]
    simp

/-- Witness of C2 at the base seed `0x7FFF`. -/
theorem prbs_state_update_witness :
    0x7FFF < 2 ^ 15 ∧
    ((_prbs 0x7FFF).2 = 0x7FFF / 2 + 2 ^ 14 * ((0x7FFF % 2) ^^^ (0x7FFF / 2 ^ 14 % 2)) ∧
    (∀ i, i < 14 → (_prbs 0x7FFF).2.testBit i = (0x7FFF).testBit (i + 1)) ∧
    (_prbs 0x7FFF).2.testBit 14 = xor ((0x7FFF).testBit 0) ((0x7FFF).testBit 14) ∧
    (_prbs 0x7FFF).2 < 2 ^ 15) :=
  ⟨by decide, prbs_state_update 0x7FFF (by decide)⟩

/-- C3, as stated, fails at the base seed: `_prbs` applied to `0x7FFF` returns
0, while the bit shifted out of the register (bit 0 of `0x7FFF`) is 1. -/
theorem prbs_returns_shifted_out_bit_counterexample :
    0x7FFF < 2 ^ 15 ∧ (_prbs 0x7FFF).1 = 0 ∧ 0x7FFF % 2 = 1 ∧
    ¬ (∀ x, x < 2 ^ 15 → (_prbs x).1 = x % 2) := by
  refine ⟨by decide, by decide, by decide, ?_⟩
  intro h
  have h1 := h 0x7FFF (by decide)
  revert h1
  decide

/-- C3, amended. For every 15-bit state `x`, the bit returned by `_prbs` is the
feedback bit `bit0(x) XOR bit14(x)`, the bit shifted into the top (bit 14) of the
new state; it equals the bit shifted out (bit 0 of `x`) exactly when bit 14 of
`x` is 0. -/
theorem prbs_returns_feedback_bit (x : Nat) (hx : x < 2 ^ 15) :
    (_prbs x).1 = (x % 2) ^^^ (x / 2 ^ 14 % 2) ∧
    (_prbs x).1 = (_prbs x).2 / 2 ^ 14 ∧
    ((_prbs x).1 = x % 2 ↔ x / 2 ^ 14 = 0) := by
  have hb := prbs_bit_le x
  have hs := prbs_state_eq x hx
  have he := prbs_bit_eq x
  refine ⟨he, by omega, ?_⟩
  rw [he, xor_bits _ _ (Nat.mod_lt _ (by decide)) (Nat.mod_lt _ (by decide))]
  omega

/-- Witness of the amended C3 at the base seed `0x7FFF`. -/
theorem prbs_returns_feedback_bit_witness :
    0x7FFF < 2 ^ 15 ∧
    ((_prbs 0x7FFF).1 = (0x7FFF % 2) ^^^ (0x7FFF / 2 ^ 14 % 2) ∧
    (_prbs 0x7FFF).1 = (_prbs 0x7FFF).2 / 2 ^ 14 ∧
    ((_prbs 0x7FFF).1 = 0x7FFF % 2 ↔ 0x7FFF / 2 ^ 14 = 0)) :=
  ⟨by decide, prbs_returns_feedback_bit 0x7FFF (by decide)⟩

/-! ## The sample classifier -/

theorem get_polarity_cases (b : Int) :
    get_polarity b = if 0 ≤ b ∧ b ≤ 0x55 then -1 else if 0x55 < b ∧ b ≤ 0xAA then 0
      else if 0xAA < b ∧ b ≤ 0xFF then 1 else 0 := rfl

theorem get_polarity_low (b : Int) (h0 : 0 ≤ b) (h1 : b ≤ 0x55) : get_polarity b = -1 := by
  rw [get_polarity_cases, if_pos ⟨h0, h1⟩]

theorem get_polarity_mid (b : Int) (h0 : 0x56 ≤ b) (h1 : b ≤ 0xAA) : get_polarity b = 0 := by
  rw [get_polarity_cases, if_neg (by omega), if_pos (by omega)]

theorem get_polarity_high (b : Int) (h0 : 0xAB ≤ b) (h1 : b ≤ 0xFF) : get_polarity b = 1 := by
  rw [get_polarity_cases, if_neg (by omega), if_neg (by omega), if_pos (by omega)]

/-- C5. For every intensity `b` in 0..255, `get_polarity b` is -1 exactly when
`b <= 0x55`, 0 exactly when `0x56 <= b <= 0xAA`, and +1 exactly when
`b >= 0xAB`; in particular the six boundary values of the specification. -/
theorem get_polarity_bands (b : Int) (h0 : 0 ≤ b) (h1 : b ≤ 255) :
    (get_polarity b = -1 ↔ b ≤ 0x55) ∧
    (get_polarity b = 0 ↔ 0x56 ≤ b ∧ b ≤ 0xAA) ∧
    (get_polarity b = 1 ↔ 0xAB ≤ b) ∧
    get_polarity 0x00 = -1 ∧ get_polarity 0x55 = -1 ∧ get_polarity 0x56 = 0 ∧
    get_polarity 0xAA = 0 ∧ get_polarity 0xAB = 1 ∧ get_polarity 0xFF = 1 := by
  refine ⟨?_, ?_, ?_, by decide, by decide, by decide, by decide, by decide, by decide⟩
  all_goals
    rcases le_or_lt b 0x55 with h | h
    · rw [get_polarity_low b h0 h]
      constructor <;> intro h2 <;> omega
    · rcases le_or_lt b 0xAA with h3 | h3
      · rw [get_polarity_mid b (by omega) h3]
        constructor <;> intro h2 <;> omega
      · rw [get_polarity_high b (by omega) (by omega)]
        constructor <;> intro h2 <;> omega

/-- Witness of C5 at the first intensity of the middle band. -/
theorem get_polarity_bands_witness :
    (0 : Int) ≤ 0x56 ∧ (0x56 : Int) ≤ 255 ∧
    ((get_polarity 0x56 = -1 ↔ (0x56 : Int) ≤ 0x55) ∧
    (get_polarity 0x56 = 0 ↔ (0x56 : Int) ≤ 0x56 ∧ (0x56 : Int) ≤ 0xAA) ∧
    (get_polarity 0x56 = 1 ↔ (0xAB : Int) ≤ 0x56) ∧
    get_polarity 0x00 = -1 ∧ get_polarity 0x55 = -1 ∧ get_polarity 0x56 = 0 ∧
    get_polarity 0xAA = 0 ∧ get_polarity 0xAB = 1 ∧ get_polarity 0xFF = 1) :=
  ⟨by decide, by decide, get_polarity_bands 0x56 (by decide) (by decide)⟩

/-- C6, as stated, fails: the negative polarity decodes to bit 1, and so does
the intensity 0, which is below `0xAA`. -/
theorem get_bit_negative_counterexample :
    get_bit (-1) = 1 ∧ get_polarity 0 = -1 ∧ get_bit (get_polarity 0) = 1 ∧
    ¬ (∀ p : Int, (p = -1 ∨ p = 0 ∨ p = 1) → (get_bit p = if 0 < p then 1 else 0)) := by
  refine ⟨by decide, by decide, by decide, ?_⟩
  intro h
  have h1 := h (-1) (Or.inl rfl)
  revert h1
  decide

/-- C6, amended. For every polarity `p` in {-1, 0, +1}, `get_bit p` is 0 when
`p` is 0 and 1 when `p` is negative or positive; so for an intensity `b` in
0..255 the sample decodes to bit 0 exactly in the middle band
`0x56 <= b <= 0xAA`, and to bit 1 when `b <= 0x55` or `b >= 0xAB`. -/
theorem get_bit_zero_iff_middle (p b : Int) (hp : p = -1 ∨ p = 0 ∨ p = 1)
    (h0 : 0 ≤ b) (h1 : b ≤ 255) :
    (get_bit p = if p = 0 then 0 else 1) ∧
    (get_bit (get_polarity b) = 0 ↔ 0x56 ≤ b ∧ b ≤ 0xAA) ∧
    (get_bit (get_polarity b) = 1 ↔ b ≤ 0x55 ∨ 0xAB ≤ b) := by
  have e1 : get_bit (-1) = 1 := by decide
  have e2 : get_bit 0 = 0 := by decide
  have e3 : get_bit 1 = 1 := by decide
  refine ⟨?_, ?_, ?_⟩
  · rcases hp with h | h | h <;> subst h <;> decide
  all_goals
    rcases le_or_lt b 0x55 with h | h
    · rw [get_polarity_low b h0 h, e1]
      constructor <;> intro h2 <;> omega
    · rcases le_or_lt b 0xAA with h3 | h3
      · rw [get_polarity_mid b (by omega) h3, e2]
        constructor <;> intro h2 <;> omega
      · rw [get_polarity_high b (by omega) (by omega), e3]
        constructor <;> intro h2 <;> omega

/-- Witness of the amended C6 at the negative polarity and the intensity 0. -/
theorem get_bit_zero_iff_middle_witness :
    ((-1 : Int) = -1 ∨ (-1 : Int) = 0 ∨ (-1 : Int) = 1) ∧ (0 : Int) ≤ 0 ∧ (0 : Int) ≤ 255 ∧
    ((get_bit (-1) = if (-1 : Int) = 0 then 0 else 1) ∧
    (get_bit (get_polarity 0) = 0 ↔ (0x56 : Int) ≤ 0 ∧ (0 : Int) ≤ 0xAA) ∧
    (get_bit (get_polarity 0) = 1 ↔ (0 : Int) ≤ 0x55 ∨ (0xAB : Int) ≤ 0)) :=
  ⟨by decide, by decide, by decide,
    get_bit_zero_iff_middle (-1) 0 (by decide) (by decide) (by decide)⟩

/-! ## Descrambling -/

theorem descramble_length (poly : Nat) (bits : List Nat) :
    (descramble poly bits).length = bits.length := by
  induction bits generalizing poly with
  | nil => rfl
  | cons b rest ih => simp [descramble, ih]

/-- C7. Descrambling is an involution: for every seed (in particular every
15-bit seed) and every finite bit sequence, XORing each bit with the successive
outputs of `_prbs` started from that seed, and doing the same again to the
result with the same seed, gives back the original sequence. -/
theorem descramble_involution (seed : Nat) (bits : List Nat) :
    descramble seed (descramble seed bits) = bits := by
  induction bits generalizing seed with
  | nil => rfl
  | cons b rest ih =>
    simp only [descramble, ih, Nat.xor_assoc, Nat.xor_self, Nat.xor_zero]

/-! ## The scrambler table -/

theorem getD_set (t : List Nat) (i n v : Nat) :
    (t.set i v).getD n 0 = if n = i ∧ i < t.length then v else t.getD n 0 := by
  rw [List.getD_eq_getElem?_getD, List.getD_eq_getElem?_getD, List.getElem?_set]
  by_cases h : i = n
  · subst h
    by_cases h2 : i < t.length
    · simp [h2]
    · simp [h2, List.getElem?_eq_none (Nat.le_of_not_lt h2)]
  · have h3 : ¬ n = i := fun e => h e.symm
    simp [h, h3]

theorem prbs_advance_iterate (i k : Nat) (t : List Nat) (hi : i < t.length) :
    ((prbs_advance i)^[k] t).length = t.length ∧
    ∀ n, ((prbs_advance i)^[k] t).getD n 0 =
      if n = i then (fun x => (_prbs x).2)^[k] (t.getD i 0) else t.getD n 0 := by
  induction k with
  | zero =>
    refine ⟨rfl, fun n => ?_⟩
    by_cases h : n = i
    · simp [h]
    · simp [h]
  | succ k ih =>
    obtain ⟨hl, hg⟩ := ih
    rw [Function.iterate_succ_apply', Function.iterate_succ_apply']
    generalize (prbs_advance i)^[k] t = u at hl hg
    refine ⟨by rw [prbs_advance, List.length_set, hl], fun n => ?_⟩
    rw [prbs_advance, getD_set, hl, hg i, if_pos rfl, hg n]
    by_cases h : n = i
    · rw [if_pos ⟨h, hi⟩, if_pos h]
    · rw [if_neg (fun e => h e.1), if_neg h, if_neg h]

theorem prbs_init_step_spec (t : List Nat) (i : Nat) (hi : i < t.length) :
    (prbs_init_step t i).length = t.length ∧
    ∀ n, (prbs_init_step t i).getD n 0 =
      if n = i then (fun x => (_prbs x).2)^[648] (t.getD (i - 1) 0) else t.getD n 0 := by
  have h := prbs_advance_iterate i 648 (t.set i (t.getD (i - 1) 0))
    (by rw [List.length_set]; exact hi)
  obtain ⟨hl, hg⟩ := h
  rw [List.length_set] at hl
  refine ⟨hl, fun n => ?_⟩
  rw [prbs_init_step, hg n, getD_set, getD_set]
  by_cases h : n = i
  · rw [if_pos h, if_pos ⟨rfl, hi⟩, if_pos h]
  · rw [if_neg h, if_neg (fun e => h e.1), if_neg h]

theorem prbs_init_upto (t0 : List Nat) (seed : Nat) (hlen : t0.length = 625)
    (h0 : t0.getD 0 0 = seed) (k : Nat) (hk : k ≤ 624) :
    ((List.range' 1 k).foldl prbs_init_step t0).length = 625 ∧
    ∀ n, n ≤ k →
      ((List.range' 1 k).foldl prbs_init_step t0).getD n 0 =
      (fun x => (_prbs x).2)^[648 * n] seed := by
  induction k with
  | zero =>
    refine ⟨hlen, fun n hn => ?_⟩
    have hn0 : n = 0 := by omega
    subst hn0
    exact h0
  | succ k ih =>
    obtain ⟨hl, hg⟩ := ih (by omega)
    rw [List.range'_1_concat, List.foldl_append, List.foldl_cons, List.foldl_nil]
    generalize (List.range' 1 k).foldl prbs_init_step t0 = u at hl hg
    obtain ⟨hl2, hg2⟩ := prbs_init_step_spec u (1 + k) (by omega)
    refine ⟨by omega, fun n hn => ?_⟩
    rw [hg2 n]
    by_cases h : n = 1 + k
    · rw [if_pos h, h, show 1 + k - 1 = k by omega, hg k (le_refl k),
        show 648 * (1 + k) = 648 + 648 * k by omega, Function.iterate_add_apply]
    · rw [if_neg h]
      exact hg n (by omega)

theorem getElem?_of_getD (t : List Nat) (n v : Nat) (h : n < t.length)
    (hv : t.getD n 0 = v) : t[n]? = some v := by
  rw [← hv, List.getD_eq_getElem?_getD, List.getElem?_eq_getElem h]
  rfl

theorem prbs_init_length : prbs_init.length = 625 :=
  (prbs_init_upto ((List.replicate 625 0).set 0 _PRBS_POLY) _PRBS_POLY
    (by rw [List.length_set, List.length_replicate])
    (by rw [getD_set, List.length_replicate, if_pos ⟨rfl, by omega⟩]) 624 (le_refl _)).1

theorem prbs_init_getD (n : Nat) (hn : n ≤ 624) :
    prbs_init.getD n 0 = (fun x => (_prbs x).2)^[648 * n] _PRBS_POLY :=
  (prbs_init_upto ((List.replicate 625 0).set 0 _PRBS_POLY) _PRBS_POLY
    (by rw [List.length_set, List.length_replicate])
    (by rw [getD_set, List.length_replicate, if_pos ⟨rfl, by omega⟩]) 624 (le_refl _)).2 n hn

/-- C4. After `prbs_init`, for every line index `n` with `0 <= n < 625`, the
table entry `prbs[n]` is the state obtained by applying the `_prbs` state
update exactly `648 * n` times to the base seed `0x7FFF`. -/
theorem prbs_init_entry (n : Nat) (hn : n < 625) :
    prbs_init[n]? = some ((fun x => (_prbs x).2)^[648 * n] 0x7FFF) :=
  getElem?_of_getD prbs_init n _ (by rw [prbs_init_length]; exact hn)
    (prbs_init_getD n (by omega))

/-- Witness of C4 at the last line index of the table. -/
theorem prbs_init_entry_witness :
    624 < 625 ∧ prbs_init[624]? = some ((fun x => (_prbs x).2)^[648 * 624] 0x7FFF) :=
  ⟨by decide, prbs_init_entry 624 (by decide)⟩

/-! ## The bit packer -/

theorem bufBit_set (data : List Nat) (c v p : Nat) :
    bufBit (data.set c v) p =
      if p / 8 = c ∧ c < data.length then v.testBit (p % 8) else bufBit data p := by
  unfold bufBit
  rw [getD_set]
  by_cases h : p / 8 = c ∧ c < data.length
  · rw [if_pos h, if_pos h]
  · rw [if_neg h, if_neg h]

theorem and_mask_ne_zero (bits i : Nat) : (bits &&& 2 ^ i ≠ 0) ↔ bits.testBit i = true := by
  rw [Nat.and_two_pow]
  have hp : 0 < 2 ^ i := Nat.two_pow_pos i
  cases h : bits.testBit i
  · simp
  · simp

theorem byte_mask_testBit (offset k : Nat) (hk : k < 8) :
    ((1 <<< (offset &&& 7)) % 2 ^ 8).testBit k = decide (offset % 8 = k) := by
  have h7 : offset &&& 7 = offset % 8 := Nat.and_pow_two_sub_one_eq_mod offset 3
  rw [h7, Nat.one_shiftLeft, Nat.testBit_mod_two_pow, Nat.testBit_two_pow]
  simp [hk]

theorem byte_mask_lt (offset : Nat) : (1 <<< (offset &&& 7)) % 2 ^ 8 < 2 ^ 32 := by
  have h : (1 <<< (offset &&& 7)) % 2 ^ 8 < 2 ^ 8 := Nat.mod_lt _ (by decide)
  omega

theorem bnot32_testBit (b k : Nat) (hb : b < 2 ^ 32) (hk : k < 8) :
    (bnot32 b).testBit k = !b.testBit k := by
  have h : bnot32 b = 2 ^ 32 - (b + 1) := by
    unfold bnot32
    omega
  rw [h, Nat.testBit_two_pow_sub_succ hb]
  have hk32 : k < 32 := by omega
  simp [hk32]

theorem getElem?_eq_some_getD (data : List Nat) (c : Nat) (h : c < data.length) :
    data[c]? = some (data.getD c 0) := by
  rw [List.getD_eq_getElem?_getD, List.getElem?_eq_getElem h]
  rfl

theorem rbits_step_eq (m : Nat) (data : List Nat) (offset bits : Nat)
    (hin : offset / 8 < data.length) :
    _rbits_step m (data, offset, bits) =
      some (data.set (offset / 8)
          (if bits &&& m ≠ 0 then
            (data.getD (offset / 8) 0 ||| (1 <<< (offset &&& 7)) % 2 ^ 8) % 2 ^ 8
          else (data.getD (offset / 8) 0 &&& bnot32 ((1 <<< (offset &&& 7)) % 2 ^ 8)) % 2 ^ 8),
        offset + 1, (bits <<< 1) % 2 ^ 64) := by
  have h3 : offset >>> 3 = offset / 8 := by
    rw [Nat.shiftRight_eq_div_pow]
  simp only [_rbits_step, h3, getElem?_eq_some_getD data _ hin]

/-- One run of the loop body of `_rbits` inside the buffer: the bit
`bits & m` (for `m = 2^i`) lands at stream position `offset`, that is in byte
`offset / 8` at bit `offset % 8`, and no other bit of the buffer changes. -/
theorem rbits_step_spec (i : Nat) (data : List Nat) (offset bits : Nat)
    (hin : offset / 8 < data.length) :
    ∃ data1, _rbits_step (2 ^ i) (data, offset, bits) =
        some (data1, offset + 1, (bits <<< 1) % 2 ^ 64) ∧
      data1.length = data.length ∧
      ∀ q, bufBit data1 q = if q = offset then bits.testBit i else bufBit data q := by
  refine ⟨_, rbits_step_eq (2 ^ i) data offset bits hin, by rw [List.length_set],
    fun q => ?_⟩
  rw [bufBit_set]
  have hq8 : q % 8 < 8 := Nat.mod_lt _ (by decide)
  by_cases hq : q = offset
  · subst hq
    rw [if_pos ⟨rfl, hin⟩, if_pos rfl]
    by_cases hb : bits &&& 2 ^ i ≠ 0
    · rw [if_pos hb, Nat.testBit_mod_two_pow, Nat.testBit_or, byte_mask_testBit _ _ hq8,
        (and_mask_ne_zero bits i).1 hb]
      simp [hq8]
    · rw [if_neg hb, Nat.testBit_mod_two_pow, Nat.testBit_and,
        bnot32_testBit _ _ (byte_mask_lt q) hq8, byte_mask_testBit _ _ hq8]
      have hf : bits.testBit i = false := by
        cases h : bits.testBit i
        · rfl
        · exact absurd ((and_mask_ne_zero bits i).2 h) hb
      simp [hf]
  · rw [if_neg hq]
    by_cases hc : q / 8 = offset / 8
    · rw [if_pos ⟨hc, hin⟩]
      have hne : ¬ offset % 8 = q % 8 := by omega
      have hb : bufBit data q = (data.getD (offset / 8) 0).testBit (q % 8) := by
        unfold bufBit
        rw [hc]
      rw [hb]
      by_cases hbit : bits &&& 2 ^ i ≠ 0
      · rw [if_pos hbit, Nat.testBit_mod_two_pow, Nat.testBit_or, byte_mask_testBit _ _ hq8]
        simp [hq8, hne]
      · rw [if_neg hbit, Nat.testBit_mod_two_pow, Nat.testBit_and,
          bnot32_testBit _ _ (byte_mask_lt offset) hq8, byte_mask_testBit _ _ hq8]
        simp [hq8, hne]
    · rw [if_neg (fun e => hc e.1)]

theorem shl_mod_testBit (bits i : Nat) (hi : i < 64) :
    ((bits <<< 1) % 2 ^ 64).testBit i = (decide (1 ≤ i) && bits.testBit (i - 1)) := by
  rw [Nat.testBit_mod_two_pow, Nat.testBit_shiftLeft]
  simp [hi]

/-- The loop of `_rbits` run `k` times with the mask `2^i`, `i < 64`: the `j`-th
run stores bit `i - j` of `bits` at stream position `offset + j`. -/
theorem rbits_loop_spec (i : Nat) (hi : i < 64) (k : Nat) :
    ∀ (data : List Nat) (offset bits : Nat), (offset + k - 1) / 8 < data.length →
    ∃ data1 bits1, iterM (_rbits_step (2 ^ i)) k (data, offset, bits) =
        some (data1, offset + k, bits1) ∧
      data1.length = data.length ∧
      ∀ q, bufBit data1 q =
        if offset ≤ q ∧ q < offset + k then
          (decide (q - offset ≤ i) && bits.testBit (i - (q - offset)))
        else bufBit data q := by
  induction k with
  | zero =>
    intro data offset bits _
    refine ⟨data, bits, rfl, rfl, fun q => ?_⟩
    rw [if_neg (by omega)]
  | succ k ih =>
    intro data offset bits hin
    obtain ⟨d1, hs, hl, hb⟩ := rbits_step_spec i data offset bits (by omega)
    obtain ⟨d2, b2, hs2, hl2, hb2⟩ := ih d1 (offset + 1) ((bits <<< 1) % 2 ^ 64)
      (by rw [hl]; rcases k with _ | k
          · omega
          · have : offset + 1 + (k + 1) - 1 = offset + (k + 1 + 1) - 1 := by omega
            rw [this]; exact hin)
    refine ⟨d2, b2, ?_, by rw [hl2, hl], fun q => ?_⟩
    · show (_rbits_step (2 ^ i) (data, offset, bits)).bind _ = _
      rw [hs, Option.some_bind, hs2]
      have : offset + 1 + k = offset + (k + 1) := by omega
      rw [this]
    · rw [hb2 q, hb q]
      by_cases h1 : q = offset
      · subst h1
        rw [if_neg (by omega), if_pos rfl, if_pos (by omega)]
        simp
      · rw [if_neg h1]
        by_cases h2 : offset + 1 ≤ q ∧ q < offset + 1 + k
        · rw [if_pos h2, if_pos (by omega)]
          by_cases h3 : q - offset ≤ i
          · have h4 : q - (offset + 1) ≤ i := by omega
            rw [shl_mod_testBit _ _ (by omega)]
            have h5 : 1 ≤ i - (q - (offset + 1)) := by omega
            have h6 : i - (q - (offset + 1)) - 1 = i - (q - offset) := by omega
            simp [h3, h4, h5, h6]
          · by_cases h4 : q - (offset + 1) ≤ i
            · rw [shl_mod_testBit _ _ (by omega)]
              have h5 : ¬ 1 ≤ i - (q - (offset + 1)) := by omega
              simp [h3, h5]
            · simp [h3, h4]
        · rw [if_neg h2, if_neg (by omega)]

theorem rbits_mask (nbits : Nat) (h64 : nbits ≤ 64) (h1 : 1 ≤ nbits) :
    (1 <<< (nbits - 1)) % 2 ^ 64 = 2 ^ (nbits - 1) := by
  rw [Nat.one_shiftLeft]
  exact Nat.mod_eq_of_lt (Nat.pow_lt_pow_right (by decide) (by omega))

/-- C10, as stated, fails: writing the single bit 1 at stream offset 0 of a
zeroed one-byte buffer sets bit 0 of byte 0 (the byte becomes `0x01`), not bit
`7 - 0`. -/
theorem rbits_msb_position_counterexample :
    _rbits [0] 0 1 1 = some ([1], 1) ∧
    ([1].getD (0 / 8) 0).testBit (7 - 0 % 8) = false ∧
    ([1].getD (0 / 8) 0).testBit (0 % 8) = true := by
  refine ⟨by decide, by decide, by decide⟩

/-- C10, amended. The bitstream is packed LSB-first within each byte: for every
buffer and every stream offset `p` inside it, the bit that `_rbits` writes at
offset `p` is stored in byte `p / 8` at bit position `p mod 8`, so the first
bit written into a byte is its least significant bit. A call with `nbits` bits
takes them from the value most significant first (bit `nbits - 1 - k` of `bits`
goes to offset `offset + k`), changes no other bit of the buffer and returns
`offset + nbits`. -/
theorem rbits_bit_position (data : List Nat) (offset bits nbits : Nat)
    (h1 : 1 ≤ nbits) (h64 : nbits ≤ 64) (hin : (offset + nbits - 1) / 8 < data.length) :
    ∃ data1, _rbits data offset bits nbits = some (data1, offset + nbits) ∧
      data1.length = data.length ∧
      (∀ k, k < nbits →
        (data1.getD ((offset + k) / 8) 0).testBit ((offset + k) % 8) =
          bits.testBit (nbits - 1 - k)) ∧
      (∀ q, q < offset ∨ offset + nbits ≤ q → bufBit data1 q = bufBit data q) := by
  obtain ⟨d1, b1, hs, hl, hb⟩ :=
    rbits_loop_spec (nbits - 1) (by omega) nbits data offset bits hin
  refine ⟨d1, ?_, hl, fun k hk => ?_, fun q hq => ?_⟩
  · unfold _rbits
    simp only [rbits_mask nbits h64 h1, hs, Option.map_some']
  · have h := hb (offset + k)
    rw [if_pos (by omega)] at h
    have e1 : offset + k - offset = k := by omega
    have e2 : k ≤ nbits - 1 := by omega
    rw [e1] at h
    simp only [e2, decide_True, Bool.true_and] at h
    exact h
  · rw [hb q, if_neg (by omega)]

/-- Witness of the amended C10: two bits, `10` in binary, written at stream
offset 7 of a two-byte buffer, across the byte boundary. -/
theorem rbits_bit_position_witness :
    1 ≤ 2 ∧ 2 ≤ 64 ∧ (7 + 2 - 1) / 8 < [0, 0].length ∧
    ∃ data1, _rbits [0, 0] 7 2 2 = some (data1, 7 + 2) ∧
      data1.length = [0, 0].length ∧
      (∀ k, k < 2 →
        (data1.getD ((7 + k) / 8) 0).testBit ((7 + k) % 8) = (2).testBit (2 - 1 - k)) ∧
      (∀ q, q < 7 ∨ 7 + 2 ≤ q → bufBit data1 q = bufBit [0, 0] q) :=
  ⟨by decide, by decide, by decide,
    rbits_bit_position [0, 0] 7 2 2 (by decide) (by decide) (by decide)⟩

/-! ## The line synchroniser -/

theorem sample_bit_cases (v : Nat) : sample_bit v = 0 ∨ sample_bit v = 1 := by
  unfold sample_bit get_bit
  by_cases h : get_polarity ((v &&& 0xFF : Nat) : Int) = 0
  · left
    rw [if_pos h, h]
  · right
    rw [if_neg h]

theorem readFrame_inside (frame : List Nat) (n : Nat) (h : n < frame.length) :
    readFrame frame (n : Int) = some (frame.getD n 0) := by
  unfold readFrame
  rw [if_pos (Int.natCast_nonneg n), Int.toNat_natCast, getElem?_eq_some_getD frame n h]

/-- The raster index of the source, `j + pos + width * (height - line)`, is the
row-major index of column `j + pos` in row `height - line`. -/
theorem frame_index (W H : Nat) (line : Int) (c : Nat) (hl2 : line ≤ (H : Int) - 1) :
    (c : Int) + (W : Int) * ((H : Int) - line) =
      ((W * ((H : Int) - line).toNat + c : Nat) : Int) := by
  have h : (((H : Int) - line).toNat : Int) = (H : Int) - line := Int.toNat_of_nonneg (by omega)
  push_cast
  rw [h]
  ring

theorem row_inside (W H : Nat) (line : Int) (c : Nat) (hl1 : 1 ≤ line)
    (hl2 : line ≤ (H : Int) - 1) (hc : c < W) :
    W * ((H : Int) - line).toNat + c < W * H := by
  have h : ((H : Int) - line).toNat + 1 ≤ H := by omega
  have h2 : W * (((H : Int) - line).toNat + 1) ≤ W * H := Nat.mul_le_mul_left W h
  rw [Nat.mul_add, Nat.mul_one] at h2
  omega

theorem hsync_sample_inside (W H : Nat) (line : Int) (frame : List Nat) (j pos byte i : Nat)
    (hl1 : 1 ≤ line) (hl2 : line ≤ (H : Int) - 1) (hlen : frame.length = W * H)
    (hc : j + pos < W) :
    hsync_sample line W H frame j (pos, byte) i =
      some (pos + 2, (byte ||| ((sample_bit
        (frame.getD (W * ((H : Int) - line).toNat + j + pos) 0) % 2).toNat <<< i)) % 2 ^ 8) := by
  have hidx : (j : Int) + (pos : Int) + (W : Int) * ((H : Int) - line) =
      ((W * ((H : Int) - line).toNat + j + pos : Nat) : Int) := by
    have := frame_index W H line (j + pos) hl2
    push_cast at this ⊢
    omega
  have hin : W * ((H : Int) - line).toNat + j + pos < frame.length := by
    have := row_inside W H line (j + pos) hl1 hl2 hc
    omega
  simp only [hsync_sample, hidx, readFrame_inside frame _ hin]
  rfl

theorem word_bits (b0 b1 b2 b3 b4 b5 : Int)
    (h0 : b0 = 0 ∨ b0 = 1) (h1 : b1 = 0 ∨ b1 = 1) (h2 : b2 = 0 ∨ b2 = 1)
    (h3 : b3 = 0 ∨ b3 = 1) (h4 : b4 = 0 ∨ b4 = 1) (h5 : b5 = 0 ∨ b5 = 1) :
    ((((((0 ||| (b0 % 2).toNat <<< 0) % 2 ^ 8 ||| (b1 % 2).toNat <<< 1) % 2 ^ 8 |||
      (b2 % 2).toNat <<< 2) % 2 ^ 8 ||| (b3 % 2).toNat <<< 3) % 2 ^ 8 |||
      (b4 % 2).toNat <<< 4) % 2 ^ 8 ||| (b5 % 2).toNat <<< 5) % 2 ^ 8 =
    b0.toNat * 2 ^ 0 + (b1.toNat * 2 ^ 1 + (b2.toNat * 2 ^ 2 + (b3.toNat * 2 ^ 3 +
      (b4.toNat * 2 ^ 4 + (b5.toNat * 2 ^ 5 + 0))))) := by
  rcases h0 with h0 | h0 <;> rcases h1 with h1 | h1 <;> rcases h2 with h2 | h2 <;>
    rcases h3 with h3 | h3 <;> rcases h4 with h4 | h4 <;> rcases h5 with h5 | h5 <;>
    subst h0 h1 h2 h3 h4 h5 <;> decide

/-- Inside the raster the inner loop of `find_hsync` computes the word of the
specification: sample `i` of columns `j, j + 2, ..., j + 10` at bit `i`. -/
theorem hsync_word_inside (W H : Nat) (line : Int) (frame : List Nat) (j : Nat)
    (hl1 : 1 ≤ line) (hl2 : line ≤ (H : Int) - 1) (hlen : frame.length = W * H)
    (hj : j + 12 < W) :
    hsync_word line W H frame j = some (sync_word_at W frame ((H : Int) - line).toNat j) := by
  have hr : List.range 6 = [0, 1, 2, 3, 4, 5] := by decide
  unfold hsync_word sync_word_at
  rw [hr]
  simp only [List.foldlM_cons, List.foldlM_nil]
  rw [hsync_sample_inside W H line frame j 0 _ _ hl1 hl2 hlen (by omega)]
  simp only [Option.some_bind, Option.bind_eq_bind]
  rw [hsync_sample_inside W H line frame j 2 _ _ hl1 hl2 hlen (by omega)]
  simp only [Option.some_bind, Option.bind_eq_bind]
  rw [hsync_sample_inside W H line frame j 4 _ _ hl1 hl2 hlen (by omega)]
  simp only [Option.some_bind, Option.bind_eq_bind]
  rw [hsync_sample_inside W H line frame j 6 _ _ hl1 hl2 hlen (by omega)]
  simp only [Option.some_bind, Option.bind_eq_bind]
  rw [hsync_sample_inside W H line frame j 8 _ _ hl1 hl2 hlen (by omega)]
  simp only [Option.some_bind, Option.bind_eq_bind]
  rw [hsync_sample_inside W H line frame j 10 _ _ hl1 hl2 hlen (by omega)]
  simp only [Option.some_bind, Option.bind_eq_bind, Option.map_some', pure,
    List.map_cons, List.map_nil, List.sum_cons, List.sum_nil]
  exact congrArg some
    (word_bits _ _ _ _ _ _ (sample_bit_cases _) (sample_bit_cases _) (sample_bit_cases _)
      (sample_bit_cases _) (sample_bit_cases _) (sample_bit_cases _))

theorem hsync_scan_found (line width height : Int) (frame : List Nat) (word : Nat → Nat)
    (n : Nat) : ∀ (j j0 : Nat),
    (∀ c, j ≤ c → c < j + n → hsync_word line width height frame c = some (word c)) →
    j ≤ j0 → j0 < j + n → is_sync (word j0) = true →
    (∀ c, j ≤ c → c < j0 → is_sync (word c) = false) →
    hsync_scan line width height frame n j = some j0 := by
  induction n with
  | zero =>
    intro j j0 _ h1 h2
    omega
  | succ n ih =>
    intro j j0 hw h1 h2 hm hmin
    unfold hsync_scan
    rw [hw j (le_refl j) (by omega)]
    by_cases hj : j = j0
    · subst hj
      simp only [hm, if_true]
    · have hf := hmin j (le_refl j) (by omega)
      simp only [hf, Bool.false_eq_true, if_false]
      exact ih (j + 1) j0 (fun c hc1 hc2 => hw c (by omega) (by omega)) (by omega) (by omega) hm
        (fun c hc1 hc2 => hmin c (by omega) hc2)

theorem hsync_scan_exhausted (line width height : Int) (frame : List Nat) (word : Nat → Nat)
    (n : Nat) : ∀ (j : Nat),
    (∀ c, j ≤ c → c < j + n → hsync_word line width height frame c = some (word c)) →
    (∀ c, j ≤ c → c < j + n → is_sync (word c) = false) →
    hsync_scan line width height frame n j = some (j + n) := by
  induction n with
  | zero =>
    intro j _ _
    rfl
  | succ n ih =>
    intro j hw hno
    unfold hsync_scan
    rw [hw j (le_refl j) (by omega)]
    have hf := hno j (le_refl j) (by omega)
    simp only [hf, Bool.false_eq_true, if_false]
    rw [ih (j + 1) (fun c hc1 hc2 => hw c (by omega) (by omega))
      (fun c hc1 hc2 => hno c (by omega) (by omega))]
    congr 1
    omega

theorem find_hsync_eq (line : Int) (W H : Nat) (frame : List Nat) :
    find_hsync line W H frame =
      (hsync_scan line W H frame (W - 12) 0).map (fun (j : Nat) => uint64_of_int ((j : Int) - 1)) := by
  have h1 : line * ((OVERSAMPLING : Nat) : Int) - ((OVERSAMPLING / 2 : Nat) : Int) = line := by
    simp
  have h2 : ((W : Int) - 12).toNat = W - 12 := by omega
  unfold find_hsync
  simp only [h1, h2]

theorem int_of_uint64_pred (j : Nat) (hj : j < 2 ^ 31) :
    int_of_uint64 (uint64_of_int ((j : Int) - 1)) = (j : Int) - 1 := by
  unfold int_of_uint64 uint64_of_int
  rcases Nat.eq_zero_or_pos j with h0 | h0
  · subst h0
    decide
  · have e : (((j : Int) - 1) % 2 ^ 64).toNat = j - 1 := by omega
    rw [e]
    have e2 : (j - 1) % 2 ^ 32 = j - 1 := Nat.mod_eq_of_lt (by omega)
    rw [e2, if_pos (by omega)]
    omega

theorem uint64_of_int_pred (j W : Nat) (hW : 13 ≤ W) (hW2 : W < 2 ^ 31) (hj : j ≤ W - 12) :
    uint64_of_int ((j : Int) - 1) = W - 13 ↔ j = W - 12 := by
  unfold uint64_of_int
  rcases Nat.eq_zero_or_pos j with h0 | h0
  · subst h0
    have e : (((0 : Nat) : Int) - 1) % 2 ^ 64 = 2 ^ 64 - 1 := by decide
    rw [e]
    omega
  · have e : (((j : Int) - 1) % 2 ^ 64).toNat = j - 1 := by omega
    rw [e]
    omega

theorem raster_width_lt (W H : Nat) (line : Int) (hl1 : 1 ≤ line) (hl2 : line ≤ (H : Int) - 1)
    (hsz : W * H < 2 ^ 31) : W < 2 ^ 31 := by
  have h : 1 ≤ H := by omega
  have h2 : W * 1 ≤ W * H := Nat.mul_le_mul_left W h
  omega

theorem first_match_exists (p : Nat → Bool) (n : Nat) (hex : ∃ j, j < n ∧ p j = true) :
    ∃ j0, j0 < n ∧ p j0 = true ∧ ∀ j, j < j0 → p j = false := by
  refine ⟨Nat.find hex, (Nat.find_spec hex).1, (Nat.find_spec hex).2, fun j hj => ?_⟩
  have h := Nat.find_min hex hj
  have hlt := (Nat.find_spec hex).1
  cases hs : p j
  · rfl
  · exact absurd ⟨by omega, hs⟩ h

/-- The value `find_hsync` returns when the first matching column is `j0`. -/
theorem find_hsync_at_first (W H : Nat) (line : Int) (frame : List Nat)
    (hl1 : 1 ≤ line) (hl2 : line ≤ (H : Int) - 1) (hlen : frame.length = W * H)
    (j0 : Nat) (hj0 : j0 < W - 12)
    (hm : is_sync (sync_word_at W frame ((H : Int) - line).toNat j0) = true)
    (hmin : ∀ j, j < j0 → is_sync (sync_word_at W frame ((H : Int) - line).toNat j) = false) :
    find_hsync line W H frame = some (uint64_of_int ((j0 : Int) - 1)) := by
  have hscan := hsync_scan_found line W H frame
    (sync_word_at W frame ((H : Int) - line).toNat) (W - 12) 0 j0
    (fun c _ hc => hsync_word_inside W H line frame c hl1 hl2 hlen (by omega))
    (Nat.zero_le _) (by omega) hm (fun c _ hc => hmin c hc)
  rw [find_hsync_eq, hscan, Option.map_some']

/-- The value `find_hsync` returns when no column of the scan matches. -/
theorem find_hsync_no_match (W H : Nat) (line : Int) (frame : List Nat)
    (hl1 : 1 ≤ line) (hl2 : line ≤ (H : Int) - 1) (hlen : frame.length = W * H)
    (hno : ∀ j, j < W - 12 →
      is_sync (sync_word_at W frame ((H : Int) - line).toNat j) = false) :
    find_hsync line W H frame = some (uint64_of_int (((W - 12 : Nat) : Int) - 1)) := by
  have hscan := hsync_scan_exhausted line W H frame
    (sync_word_at W frame ((H : Int) - line).toNat) (W - 12) 0
    (fun c _ hc => hsync_word_inside W H line frame c hl1 hl2 hlen (by omega))
    (fun c _ hc => hno c (by omega))
  rw [find_hsync_eq, hscan, Option.map_some', Nat.zero_add]

/-- C8. `find_hsync` returns the offset immediately preceding the first match:
for every raster with `width >= 13` and every line in `1..height-1`, if some
position `j` in `[0, width - 12)` has a 6-bit word (the bits of the samples at
columns `j, j+2, ..., j+10` of the line's row, sample `i` at bit `i`) equal to
`0x34` or `0x0B`, then the result, as the signed offset received by
`decode_frame`, is `j0 - 1` where `j0` is the least such position; no position
below `j0` has a matching word. -/
theorem find_hsync_first_match (W H : Nat) (line : Int) (frame : List Nat)
    (hW : 13 ≤ W) (hl1 : 1 ≤ line) (hl2 : line ≤ (H : Int) - 1)
    (hlen : frame.length = W * H) (hsz : W * H < 2 ^ 31)
    (hex : ∃ j, j < W - 12 ∧ is_sync (sync_word_at W frame ((H : Int) - line).toNat j) = true) :
    ∃ j0 r, j0 < W - 12 ∧
      is_sync (sync_word_at W frame ((H : Int) - line).toNat j0) = true ∧
      (∀ j, j < j0 → is_sync (sync_word_at W frame ((H : Int) - line).toNat j) = false) ∧
      find_hsync line W H frame = some r ∧
      int_of_uint64 r = (j0 : Int) - 1 := by
  obtain ⟨j0, hj0, hm, hmin⟩ := first_match_exists
    (fun j => is_sync (sync_word_at W frame ((H : Int) - line).toNat j)) (W - 12) hex
  have hWlt := raster_width_lt W H line hl1 hl2 hsz
  exact ⟨j0, uint64_of_int ((j0 : Int) - 1), hj0, hm, hmin,
    find_hsync_at_first W H line frame hl1 hl2 hlen j0 hj0 hm hmin,
    int_of_uint64_pred _ (by omega)⟩

/-- C9. For every raster with `width >= 13` and every line in `1..height-1`,
`find_hsync` returns the scan bound minus one, `width - 13`, if and only if no
position `j` in `[0, width - 12)` has a sync word equal to `0x34` or `0x0B`; it
always returns normally (a value, every raster read being inside
`[0, width * height)`), so in that case the sentinel is returned without a
fault. The equivalence holds for the returned `uint64_t` and for the signed
offset `decode_frame` receives. -/
theorem find_hsync_sentinel_iff (W H : Nat) (line : Int) (frame : List Nat)
    (hW : 13 ≤ W) (hl1 : 1 ≤ line) (hl2 : line ≤ (H : Int) - 1)
    (hlen : frame.length = W * H) (hsz : W * H < 2 ^ 31) :
    (∃ r, find_hsync line W H frame = some r) ∧
    (find_hsync line W H frame = some (W - 13) ↔
      ∀ j, j < W - 12 → is_sync (sync_word_at W frame ((H : Int) - line).toNat j) = false) ∧
    ((find_hsync line W H frame).map int_of_uint64 = some ((W : Int) - 13) ↔
      ∀ j, j < W - 12 → is_sync (sync_word_at W frame ((H : Int) - line).toNat j) = false) := by
  have hWlt := raster_width_lt W H line hl1 hl2 hsz
  by_cases hex : ∃ j, j < W - 12 ∧
      is_sync (sync_word_at W frame ((H : Int) - line).toNat j) = true
  · obtain ⟨j0, hj0, hm, hmin⟩ := first_match_exists
      (fun j => is_sync (sync_word_at W frame ((H : Int) - line).toNat j)) (W - 12) hex
    have hr := find_hsync_at_first W H line frame hl1 hl2 hlen j0 hj0 hm hmin
    have hnot : ¬ ∀ j, j < W - 12 →
        is_sync (sync_word_at W frame ((H : Int) - line).toNat j) = false := by
      intro hall
      have h := hall j0 hj0
      rw [hm] at h
      exact Bool.noConfusion h
    refine ⟨⟨_, hr⟩, ⟨fun h => ?_, fun h => absurd h hnot⟩, ⟨fun h => ?_, fun h => absurd h hnot⟩⟩
    · rw [hr] at h
      have h2 := (uint64_of_int_pred j0 W hW hWlt (by omega)).1 (Option.some.inj h)
      omega
    · rw [hr, Option.map_some', int_of_uint64_pred j0 (by omega)] at h
      have h2 := Option.some.inj h
      omega
  · have hno : ∀ j, j < W - 12 →
        is_sync (sync_word_at W frame ((H : Int) - line).toNat j) = false := by
      intro j hj
      cases hs : is_sync (sync_word_at W frame ((H : Int) - line).toNat j)
      · rfl
      · exact absurd ⟨j, hj, hs⟩ hex
    have hr := find_hsync_no_match W H line frame hl1 hl2 hlen hno
    refine ⟨⟨_, hr⟩, ⟨fun _ => hno, fun _ => ?_⟩, ⟨fun _ => hno, fun _ => ?_⟩⟩
    · rw [hr, (uint64_of_int_pred (W - 12) W hW hWlt (le_refl _)).2 rfl]
    · rw [hr, Option.map_some', int_of_uint64_pred (W - 12) (by omega)]
      congr 1
      omega

/-- Witness of C8 on `sync_raster`: the word `0x34` first matches at column 1,
and line 1 is sampled in row 1. -/
theorem find_hsync_first_match_witness :
    13 ≤ 14 ∧ (1 : Int) ≤ 1 ∧ (1 : Int) ≤ ((2 : Nat) : Int) - 1 ∧
    sync_raster.length = 14 * 2 ∧ 14 * 2 < 2 ^ 31 ∧
    (∃ j, j < 14 - 12 ∧
      is_sync (sync_word_at 14 sync_raster (((2 : Nat) : Int) - 1).toNat j) = true) ∧
    ∃ j0 r, j0 < 14 - 12 ∧
      is_sync (sync_word_at 14 sync_raster (((2 : Nat) : Int) - 1).toNat j0) = true ∧
      (∀ j, j < j0 →
        is_sync (sync_word_at 14 sync_raster (((2 : Nat) : Int) - 1).toNat j) = false) ∧
      find_hsync 1 (14 : Nat) (2 : Nat) sync_raster = some r ∧
      int_of_uint64 r = (j0 : Int) - 1 :=
  ⟨by decide, by decide, by decide, by decide, by decide, ⟨1, by decide, by decide⟩,
    find_hsync_first_match 14 2 1 sync_raster (by decide) (by decide) (by decide) (by decide)
      (by decide) ⟨1, by decide, by decide⟩⟩

/-- Witness of C9 on `grey_raster`, where no column matches. -/
theorem find_hsync_sentinel_iff_witness :
    13 ≤ 13 ∧ (1 : Int) ≤ 1 ∧ (1 : Int) ≤ ((2 : Nat) : Int) - 1 ∧
    grey_raster.length = 13 * 2 ∧ 13 * 2 < 2 ^ 31 ∧
    ((∃ r, find_hsync 1 (13 : Nat) (2 : Nat) grey_raster = some r) ∧
    (find_hsync 1 (13 : Nat) (2 : Nat) grey_raster = some (13 - 13) ↔
      ∀ j, j < 13 - 12 →
        is_sync (sync_word_at 13 grey_raster (((2 : Nat) : Int) - 1).toNat j) = false) ∧
    ((find_hsync 1 (13 : Nat) (2 : Nat) grey_raster).map int_of_uint64 =
        some (((13 : Nat) : Int) - 13) ↔
      ∀ j, j < 13 - 12 →
        is_sync (sync_word_at 13 grey_raster (((2 : Nat) : Int) - 1).toNat j) = false)) :=
  ⟨by decide, by decide, by decide, by decide, by decide,
    find_hsync_sentinel_iff 13 2 1 grey_raster (by decide) (by decide) (by decide) (by decide)
      (by decide)⟩

/-! ## The packet deinterleaver -/

theorem getD_lt_of_forall (pkt : List Nat) (hb : ∀ x ∈ pkt, x < 256) (c : Nat) :
    pkt.getD c 0 < 256 := by
  rw [List.getD_eq_getElem?_getD]
  by_cases h : c < pkt.length
  · rw [List.getElem?_eq_getElem h]
    exact hb _ (List.getElem_mem h)
  · rw [List.getElem?_eq_none (Nat.le_of_not_lt h)]
    decide

theorem shiftRight_lt (x k : Nat) (hx : x < 256) : x >>> k < 256 := by
  rw [Nat.shiftRight_eq_div_pow]
  exact Nat.lt_of_le_of_lt (Nat.div_le_self x (2 ^ k)) hx

/-- The state of the loop of `deinterleave` after `n` passes: `d` is `n mod 94`,
lane `j` of `tmp` has been shifted right once for each pass that used it, and
byte `c` of `pkt` has been shifted `t = min 8 (n - 8 c)` times, its top `t` bits
holding the bits injected by the passes `8 c, ..., 8 c + t - 1`. -/
theorem deinterleave_loop (pkt : List Nat) (hlen : pkt.length = 94)
    (hb : ∀ x ∈ pkt, x < 256) (n : Nat) (hn : n ≤ 752) :
    ((List.range n).foldl deinterleave_step (pkt, pkt, 0)).1.length = 94 ∧
    ((List.range n).foldl deinterleave_step (pkt, pkt, 0)).2.1.length = 94 ∧
    ((List.range n).foldl deinterleave_step (pkt, pkt, 0)).2.2 = n % 94 ∧
    (∀ j, j < 94 → ((List.range n).foldl deinterleave_step (pkt, pkt, 0)).2.1.getD j 0 =
      pkt.getD j 0 >>> ((n + 93 - j) / 94)) ∧
    (∀ c, c < 94 → ((List.range n).foldl deinterleave_step (pkt, pkt, 0)).1.getD c 0 < 256) ∧
    (∀ c b, c < 94 → b < 8 →
      (((List.range n).foldl deinterleave_step (pkt, pkt, 0)).1.getD c 0).testBit b =
        if b + min 8 (n - 8 * c) < 8 then (pkt.getD c 0).testBit (b + min 8 (n - 8 * c))
        else (pkt.getD ((8 * c + b + min 8 (n - 8 * c) - 8) % 94) 0).testBit
          ((8 * c + b + min 8 (n - 8 * c) - 8) / 94)) := by
  induction n with
  | zero =>
    refine ⟨hlen, hlen, rfl, fun j hj => ?_, fun c _ => getD_lt_of_forall pkt hb c,
      fun c b hc hb8 => ?_⟩
    · have e : (0 + 93 - j) / 94 = 0 := by omega
      rw [e]
      rfl
    · have e : min 8 (0 - 8 * c) = 0 := by omega
      rw [e, if_pos (by omega)]
      rfl
  | succ n ih =>
    obtain ⟨hP, hT, hd, hTv, hPb, hPv⟩ := ih (by omega)
    rw [List.range_succ, List.foldl_append, List.foldl_cons, List.foldl_nil]
    generalize (List.range n).foldl deinterleave_step (pkt, pkt, 0) = s at hP hT hd hTv hPb hPv
    obtain ⟨P, T, d⟩ := s
    simp only at hP hT hd hTv hPb hPv
    have hc0 : n >>> 3 = n / 8 := by rw [Nat.shiftRight_eq_div_pow]
    have hstep : deinterleave_step (P, T, d) n =
        (P.set (n / 8) (((P.getD (n / 8) 0 >>> 1) ||| (T.getD d 0 <<< 7)) % 2 ^ 8),
         T.set d ((T.getD d 0 >>> 1) % 2 ^ 8), if d + 1 = 94 then 0 else d + 1) := by
      simp only [deinterleave_step, hc0]
    rw [hstep]
    have hd94 : d < 94 := by omega
    have hc94 : n / 8 < 94 := by omega
    refine ⟨by simp only [List.length_set, hP], by simp only [List.length_set, hT], ?_,
      fun j hj => ?_, fun c hc => ?_, fun c b hc hb8 => ?_⟩
    · show (if d + 1 = 94 then 0 else d + 1) = (n + 1) % 94
      split_ifs <;> omega
    · show (T.set d ((T.getD d 0 >>> 1) % 2 ^ 8)).getD j 0 = _
      rw [getD_set]
      by_cases hjd : j = d
      · rw [if_pos ⟨hjd, by omega⟩, hTv d hd94, ← Nat.shiftRight_add, hjd]
        have e : (n + 1 + 93 - d) / 94 = (n + 93 - d) / 94 + 1 := by omega
        rw [e]
        exact Nat.mod_eq_of_lt (shiftRight_lt _ _ (getD_lt_of_forall pkt hb d))
      · rw [if_neg (fun e => hjd e.1), hTv j hj]
        have e : (n + 1 + 93 - j) / 94 = (n + 93 - j) / 94 := by omega
        rw [e]
    · show (P.set (n / 8) _).getD c 0 < 256
      rw [getD_set]
      by_cases hcc : c = n / 8
      · rw [if_pos ⟨hcc, by omega⟩]
        exact Nat.mod_lt _ (by decide)
      · rw [if_neg (fun e => hcc e.1)]
        exact hPb c hc
    · show ((P.set (n / 8) _).getD c 0).testBit b = _
      rw [getD_set]
      by_cases hcc : c = n / 8
      · rw [if_pos ⟨hcc, by omega⟩, Nat.testBit_mod_two_pow, Nat.testBit_or,
          Nat.testBit_shiftRight, Nat.testBit_shiftLeft]
        have e1 : min 8 (n + 1 - 8 * c) = n % 8 + 1 := by omega
        have e0 : min 8 (n - 8 * c) = n % 8 := by omega
        rw [e1]
        by_cases hb7 : b = 7
        · subst hb7
          have h8 : (P.getD (n / 8) 0).testBit (1 + 7) = false :=
            Nat.testBit_lt_two_pow (hPb (n / 8) hc94)
          rw [h8, hTv d hd94, Nat.testBit_shiftRight, if_neg (by omega)]
          have e2 : (8 * c + 7 + (n % 8 + 1) - 8) = n := by omega
          have e3 : (n + 93 - d) / 94 + (7 - 7) = n / 94 := by omega
          rw [e2, e3, hd]
          simp
        · have hlt : b + 1 < 8 := by omega
          have h := hPv c (b + 1) hc hlt
          rw [e0] at h
          rw [← hcc, Nat.add_comm 1 b, h]
          have hge : ¬ b ≥ 7 := by omega
          have e4 : b + 1 + n % 8 = b + (n % 8 + 1) := by omega
          have e5 : 8 * c + (b + 1) + n % 8 - 8 = 8 * c + b + (n % 8 + 1) - 8 := by omega
          simp [hb8, hge, e4, e5]
      · rw [if_neg (fun e => hcc e.1), hPv c b hc hb8]
        have e : min 8 (n + 1 - 8 * c) = min 8 (n - 8 * c) := by omega
        rw [e]

theorem deinterleave_eq (pkt : List Nat) (hlen : pkt.length = 94) :
    deinterleave pkt = ((List.range 752).foldl deinterleave_step (pkt, pkt, 0)).1 := by
  unfold deinterleave
  rw [List.take_of_length_le (by omega)]

/-- C1. `deinterleave` is a bit transpose of the 94-byte packet: with the 752
bits of a buffer numbered `p = 8 * byteIndex + bitIndex` (bit 0 the least
significant), for every 94-byte input buffer and every `r` in 0..7 and `d` in
0..93, bit `94 * r + d` of the buffer after `deinterleave` equals bit
`8 * d + r` of the buffer before it. The result is again a buffer of 94 bytes,
and it is a function of the input buffer alone. -/
theorem deinterleave_transpose (pkt : List Nat) (hlen : pkt.length = 94)
    (hb : ∀ x ∈ pkt, x < 256) (r d : Nat) (hr : r < 8) (hd : d < 94) :
    bufBit (deinterleave pkt) (94 * r + d) = bufBit pkt (8 * d + r) ∧
    (deinterleave pkt).length = 94 ∧
    (∀ c, c < 94 → (deinterleave pkt).getD c 0 < 256) := by
  obtain ⟨hP, _, _, _, hPb, hPv⟩ := deinterleave_loop pkt hlen hb 752 (le_refl _)
  rw [deinterleave_eq pkt hlen]
  refine ⟨?_, hP, hPb⟩
  unfold bufBit
  have hc : (94 * r + d) / 8 < 94 := by omega
  have hb8 : (94 * r + d) % 8 < 8 := by omega
  rw [hPv _ _ hc hb8]
  have e : min 8 (752 - 8 * ((94 * r + d) / 8)) = 8 := by omega
  rw [e, if_neg (by omega)]
  have e1 : 8 * ((94 * r + d) / 8) + (94 * r + d) % 8 + 8 - 8 = 94 * r + d := by omega
  have e2 : (94 * r + d) % 94 = d := by omega
  have e3 : (94 * r + d) / 94 = r := by omega
  have e4 : (8 * d + r) / 8 = d := by omega
  have e5 : (8 * d + r) % 8 = r := by omega
  rw [e1, e2, e3, e4, e5]

/-- Witness of C1 on the packet whose byte `i` is `i`. -/
theorem deinterleave_transpose_witness :
    (List.range 94).length = 94 ∧ (∀ x ∈ List.range 94, x < 256) ∧ 3 < 8 ∧ 5 < 94 ∧
    (bufBit (deinterleave (List.range 94)) (94 * 3 + 5) = bufBit (List.range 94) (8 * 5 + 3) ∧
    (deinterleave (List.range 94)).length = 94 ∧
    (∀ c, c < 94 → (deinterleave (List.range 94)).getD c 0 < 256)) :=
  ⟨List.length_range 94, fun x hx => Nat.lt_trans (List.mem_range.1 hx) (by decide),
    by decide, by decide,
    deinterleave_transpose (List.range 94) (List.length_range 94)
      (fun x hx => Nat.lt_trans (List.mem_range.1 hx) (by decide)) 3 5 (by decide) (by decide)⟩

/-! ## The line sampler -/

theorem readFrame_inside_int (frame : List Nat) (f : Int) (h0 : 0 ≤ f)
    (h1 : f < (frame.length : Int)) : readFrame frame f = some (frame.getD f.toNat 0) := by
  unfold readFrame
  rw [if_pos h0, getElem?_eq_some_getD frame f.toNat (by omega)]

/-- A call of `_rbits` with one bit: bit 0 of the value lands at stream position
`offset`, no other bit of the buffer changes, and `offset + 1` is returned. -/
theorem rbits_one (data : List Nat) (offset v : Nat) (hin : offset / 8 < data.length) :
    ∃ data1, _rbits data offset v 1 = some (data1, offset + 1) ∧
      data1.length = data.length ∧
      ∀ q, bufBit data1 q = if q = offset then v.testBit 0 else bufBit data q := by
  obtain ⟨d1, hs, hl, hb⟩ := rbits_step_spec 0 data offset v hin
  refine ⟨d1, ?_, hl, hb⟩
  have hm : (1 <<< (1 - 1)) % 2 ^ 64 = 2 ^ 0 := by decide
  unfold _rbits
  simp only [hm, iterM, hs, Option.some_bind, Option.map_some']

/-- The loop of `get_line_bits` run `n` times inside the raster and the buffer:
it writes the descrambled samples of the line at the stream positions
`offset, ..., offset + n - 1` and changes no other bit of the buffer. -/
theorem get_line_bits_loop (line width height : Int) (frame : List Nat) (n : Nat) :
    ∀ (data : List Nat) (pos : Int) (poly offset : Nat),
    (∀ k : Nat, k < n → 0 ≤ pos + (SPS : Int) * k + width * (height - line) ∧
      pos + (SPS : Int) * k + width * (height - line) < (frame.length : Int)) →
    (offset + n - 1) / 8 < data.length →
    ∃ data1 pos1 poly1,
      iterM (get_line_bits_step line width height frame) n (data, pos, poly, offset) =
        some (data1, pos1, poly1, offset + n) ∧
      data1.length = data.length ∧
      ∀ q, bufBit data1 q =
        if offset ≤ q ∧ q < offset + n then
          ((descramble poly (line_samples line width height frame n pos)).getD
            (q - offset) 0).testBit 0
        else bufBit data q := by
  induction n with
  | zero =>
    intro data pos poly offset _ _
    refine ⟨data, pos, poly, rfl, rfl, fun q => ?_⟩
    rw [if_neg (by omega)]
  | succ n ih =>
    intro data pos poly offset hrd hin
    have h0 := hrd 0 (by omega)
    simp only [Nat.cast_zero, mul_zero, add_zero] at h0
    obtain ⟨d1, hw, hl, hb⟩ := rbits_one data offset
      ((sample_bit (frame.getD (pos + width * (height - line)).toNat 0)).toNat ^^^
        (_prbs poly).1) (by omega)
    have hstep : get_line_bits_step line width height frame (data, pos, poly, offset) =
        some (d1, pos + (SPS : Int), (_prbs poly).2, offset + 1) := by
      simp only [get_line_bits_step, readFrame_inside_int frame _ h0.1 h0.2, hw]
    obtain ⟨d2, p2, y2, hs2, hl2, hb2⟩ := ih d1 (pos + (SPS : Int)) (_prbs poly).2 (offset + 1)
      (fun k hk => by
        have h := hrd (k + 1) (by omega)
        push_cast at h ⊢
        constructor <;> linarith [h.1, h.2])
      (by rw [hl]; rcases n with _ | n
          · omega
          · have : offset + 1 + (n + 1) - 1 = offset + (n + 1 + 1) - 1 := by omega
            rw [this]; exact hin)
    refine ⟨d2, p2, y2, ?_, by rw [hl2, hl], fun q => ?_⟩
    · show (get_line_bits_step line width height frame (data, pos, poly, offset)).bind _ = _
      rw [hstep, Option.some_bind, hs2]
      have : offset + 1 + n = offset + (n + 1) := by omega
      rw [this]
    · rw [hb2 q, hb q]
      by_cases h1 : q = offset
      · subst h1
        rw [if_neg (by omega), if_pos rfl, if_pos (by omega)]
        simp only [line_samples, descramble, Nat.sub_self, List.getD_cons_zero]
      · rw [if_neg h1]
        by_cases h2 : offset + 1 ≤ q ∧ q < offset + 1 + n
        · rw [if_pos h2, if_pos (by omega)]
          have e : q - offset = (q - (offset + 1)) + 1 := by omega
          rw [e]
          simp only [line_samples, descramble, List.getD_cons_succ]
        · rw [if_neg h2, if_neg (by omega)]

/-- The bits `get_line_bits` appends are the descrambled samples of the line:
with the seed `prbs[TOP_LINE + line - 2]`, every raster read inside the raster
and the 99 stream positions from `offset` inside the buffer, the call returns
`offset + 99` and bit `offset + k` of the buffer is bit `k` of `descramble`
applied to the 99 sampled bits; the rest of the buffer is unchanged. -/
theorem get_line_bits_descrambles (prbs data : List Nat) (line width height pos : Int)
    (frame : List Nat) (offset poly : Nat)
    (hseed : readFrame prbs ((TOP_LINE : Int) + line - 2) = some poly)
    (hrd : ∀ k : Nat, k < 99 → 0 ≤ pos + (SPS : Int) * k + width * (height - line) ∧
      pos + (SPS : Int) * k + width * (height - line) < (frame.length : Int))
    (hin : (offset + 98) / 8 < data.length) :
    ∃ data1, get_line_bits prbs data line width height pos frame offset =
        some (data1, offset + 99) ∧
      data1.length = data.length ∧
      (∀ k, k < 99 → bufBit data1 (offset + k) =
        ((descramble poly (line_samples line width height frame 99 pos)).getD k 0).testBit 0) ∧
      (∀ q, q < offset ∨ offset + 99 ≤ q → bufBit data1 q = bufBit data q) := by
  have hline : line * ((OVERSAMPLING : Nat) : Int) - ((OVERSAMPLING / 2 : Nat) : Int) = line := by
    simp
  obtain ⟨d1, p1, y1, hs, hl, hb⟩ :=
    get_line_bits_loop line width height frame 99 data pos poly offset hrd hin
  refine ⟨d1, ?_, hl, fun k hk => ?_, fun q hq => ?_⟩
  · unfold get_line_bits
    simp only [hseed, hline, hs, Option.map_some']
  · rw [hb (offset + k), if_pos (by omega)]
    have e : offset + k - offset = k := by omega
    rw [e]
  · rw [hb q, if_neg (by omega)]

/-! ## Packet header and payload -/

theorem header_fields (b0 b1 : Nat) (h0 : b0 < 256) :
    ((b1 &&& 0x03) <<< 8) ||| b0 = b0 + 256 * (b1 % 4) ∧
    (b1 >>> 2) &&& 0x03 = (b1 / 4) % 4 := by
  have e3 : b1 &&& 0x03 = b1 % 4 := Nat.and_pow_two_sub_one_eq_mod b1 2
  have e4 : (b1 >>> 2) &&& 0x03 = (b1 >>> 2) % 4 := Nat.and_pow_two_sub_one_eq_mod (b1 >>> 2) 2
  have hlt : b0 < 2 ^ 8 := h0
  refine ⟨?_, ?_⟩
  · rw [e3, Nat.shiftLeft_eq, Nat.mul_comm, ← Nat.mul_add_lt_is_or hlt]
    omega
  · rw [e4, Nat.shiftRight_eq_div_pow]

/-- C12. For every deinterleaved 94-byte packet, the extracted address equals
`pkt[0] + 256 * (pkt[1] mod 4)` (the low 10 bits of the first two bytes) and
lies in `[0, 1023]`, and the extracted continuity equals `(pkt[1] div 4) mod 4`
(bits 2-3 of the second byte) and lies in `[0, 3]`. -/
theorem packet_header_fields (p : List Nat) (hlen : p.length = 94) (hb : ∀ x ∈ p, x < 256) :
    packet_address (deinterleave p) =
      (deinterleave p).getD 0 0 + 256 * ((deinterleave p).getD 1 0 % 4) ∧
    packet_address (deinterleave p) ≤ 1023 ∧
    packet_continuity (deinterleave p) = ((deinterleave p).getD 1 0 / 4) % 4 ∧
    packet_continuity (deinterleave p) ≤ 3 := by
  obtain ⟨_, _, _, _, hPb, _⟩ := deinterleave_loop p hlen hb 752 (le_refl _)
  rw [← deinterleave_eq p hlen] at hPb
  have h0 := hPb 0 (by decide)
  obtain ⟨ha, hc⟩ := header_fields ((deinterleave p).getD 0 0) ((deinterleave p).getD 1 0) h0
  have ha2 : packet_address (deinterleave p) =
      (deinterleave p).getD 0 0 + 256 * ((deinterleave p).getD 1 0 % 4) := ha
  have hc2 : packet_continuity (deinterleave p) = ((deinterleave p).getD 1 0 / 4) % 4 := hc
  refine ⟨ha2, ?_, hc2, ?_⟩
  · rw [ha2]
    omega
  · rw [hc2]
    omega

/-- Witness of C12 on the deinterleaved packet whose byte `i` was `i`. -/
theorem packet_header_fields_witness :
    (List.range 94).length = 94 ∧ (∀ x ∈ List.range 94, x < 256) ∧
    (packet_address (deinterleave (List.range 94)) =
      (deinterleave (List.range 94)).getD 0 0 +
        256 * ((deinterleave (List.range 94)).getD 1 0 % 4) ∧
    packet_address (deinterleave (List.range 94)) ≤ 1023 ∧
    packet_continuity (deinterleave (List.range 94)) =
      ((deinterleave (List.range 94)).getD 1 0 / 4) % 4 ∧
    packet_continuity (deinterleave (List.range 94)) ≤ 3) :=
  ⟨List.length_range 94, fun x hx => Nat.lt_trans (List.mem_range.1 hx) (by decide),
    packet_header_fields (List.range 94) (List.length_range 94)
      (fun x hx => Nat.lt_trans (List.mem_range.1 hx) (by decide))⟩

theorem payload_pairs_eq :
    payload_pairs =
      [2, 18, 34, 50, 66, 82].flatMap (fun i => (List.range 16).map (fun j => (i, j))) := by
  decide

/-- C16 fails on the code: the payload loops visit 96 pairs `(i, j)`, all with
`i + j >= 2`, but the last row `i = 82` runs `i + 1 + j` up to 98, past the last
byte 93 of the packet buffer: the pair `(82, 11)` reads `pkt[94]`, and on a
94-byte packet that read, hence the payload of every packet, is outside the
buffer. -/
theorem payload_reads_leave_packet :
    payload_pairs.length = 96 ∧
    (∀ p ∈ payload_pairs, 2 ≤ p.1 + p.2) ∧
    (82, 11) ∈ payload_pairs ∧ 82 + 1 + 11 = 94 ∧
    (∀ p ∈ payload_pairs, p.1 + 1 + p.2 ≤ 98) ∧ (82, 15) ∈ payload_pairs ∧
    payload_byte (List.replicate 94 0) 82 11 = none ∧
    packet_payload (List.replicate 94 0) = none := by
  refine ⟨by decide, by decide, by decide, by decide, by decide, by decide, by decide, ?_⟩
  decide

/-! ## The line loop of the frame decoder -/

theorem iterM_succ {σ : Type} (body : σ → Option σ) (n : Nat) (s : σ) :
    iterM body (n + 1) s = (body s).bind (iterM body n) := rfl

theorem rbits_one_inside (data : List Nat) (p v : Nat) (r : List Nat × Nat)
    (h : _rbits data p v 1 = some r) : p / 8 < data.length := by
  by_contra hn
  have h3 : p >>> 3 = p / 8 := by rw [Nat.shiftRight_eq_div_pow]
  have hnone : data[p >>> 3]? = none := by
    rw [h3]
    exact List.getElem?_eq_none (Nat.le_of_not_lt hn)
  have hs : _rbits data p v 1 = none := by
    simp only [_rbits, iterM, _rbits_step, hnone, Option.none_bind, Option.map_none']
  rw [hs] at h
  exact Option.noConfusion h

/-- A single-bit call of `_rbits` that returns stayed inside the buffer, kept
its length and returned `offset + 1`. -/
theorem rbits_one_some (data : List Nat) (p v : Nat) (r : List Nat × Nat)
    (h : _rbits data p v 1 = some r) :
    p / 8 < data.length ∧ r.1.length = data.length ∧ r.2 = p + 1 ∧
    ∀ q, bufBit r.1 q = if q = p then v.testBit 0 else bufBit data q := by
  have hin := rbits_one_inside data p v r h
  obtain ⟨d1, hs, hl, hb⟩ := rbits_one data p v hin
  rw [hs] at h
  have e : r = (d1, p + 1) := (Option.some.inj h).symm
  subst e
  exact ⟨hin, hl, rfl, hb⟩

theorem get_line_bits_step_some (line width height : Int) (frame : List Nat)
    (s t : List Nat × Int × Nat × Nat)
    (h : get_line_bits_step line width height frame s = some t) :
    s.2.2.2 / 8 < s.1.length ∧ t.1.length = s.1.length ∧ t.2.2.2 = s.2.2.2 + 1 := by
  cases hr : readFrame frame (s.2.1 + width * (height - line)) with
  | none =>
    simp [get_line_bits_step, hr] at h
  | some v =>
    cases hw : _rbits s.1 s.2.2.2 ((sample_bit v).toNat ^^^ (_prbs s.2.2.1).1) 1 with
    | none =>
      simp [get_line_bits_step, hr, hw] at h
    | some r =>
      simp only [get_line_bits_step, hr, hw] at h
      obtain ⟨h1, h2, h3, _⟩ := rbits_one_some _ _ _ _ hw
      have e := (Option.some.inj h).symm
      subst e
      exact ⟨h1, h2, h3⟩

theorem get_line_bits_loop_some (line width height : Int) (frame : List Nat) (n : Nat) :
    ∀ (s t : List Nat × Int × Nat × Nat),
    iterM (get_line_bits_step line width height frame) n s = some t →
    t.1.length = s.1.length ∧ t.2.2.2 = s.2.2.2 + n ∧
    (1 ≤ n → (s.2.2.2 + n - 1) / 8 < s.1.length) := by
  induction n with
  | zero =>
    intro s t h
    have e : t = s := (Option.some.inj h).symm
    subst e
    exact ⟨rfl, rfl, fun h1 => absurd h1 (by decide)⟩
  | succ n ih =>
    intro s t h
    rw [iterM_succ] at h
    obtain ⟨s1, hs1, ht⟩ := Option.bind_eq_some.1 h
    obtain ⟨a1, a2, a3⟩ := get_line_bits_step_some line width height frame s s1 hs1
    obtain ⟨b1, b2, b3⟩ := ih s1 t ht
    refine ⟨by rw [b1, a2], by rw [b2, a3]; omega, fun _ => ?_⟩
    rcases Nat.eq_zero_or_pos n with hn | hn
    · subst hn
      exact a1
    · have := b3 hn
      rw [a2, a3] at this
      have e : s.2.2.2 + 1 + n - 1 = s.2.2.2 + (n + 1) - 1 := by omega
      rw [← e]
      exact this

/-- A call of `get_line_bits` that returns has kept the length of the buffer,
returned `offset + 99`, and written its last bit inside the buffer. -/
theorem get_line_bits_some (prbs data : List Nat) (line width height pos : Int)
    (frame : List Nat) (offset : Nat) (r : List Nat × Nat)
    (h : get_line_bits prbs data line width height pos frame offset = some r) :
    r.1.length = data.length ∧ r.2 = offset + 99 ∧ (offset + 98) / 8 < data.length := by
  unfold get_line_bits at h
  cases hp : readFrame prbs ((TOP_LINE : Int) + line - 2) with
  | none =>
    rw [hp] at h
    exact Option.noConfusion h
  | some poly =>
    rw [hp] at h
    simp only at h
    obtain ⟨t, ht, hr⟩ := Option.map_eq_some'.1 h
    obtain ⟨a1, a2, a3⟩ := get_line_bits_loop_some _ width height frame 99 _ t ht
    subst hr
    exact ⟨a1, a2, a3 (by decide)⟩

theorem decode_line_some (prbs frame : List Nat) (width height : Int) (s r : List Nat × Nat)
    (l : Nat) (h : decode_line prbs frame width height s l = some r) :
    r.1.length = s.1.length ∧ r.2 = s.2 + 99 ∧ (s.2 + 98) / 8 < s.1.length := by
  unfold decode_line at h
  cases hf : find_hsync (l : Int) width height frame with
  | none =>
    rw [hf] at h
    exact Option.noConfusion h
  | some v =>
    rw [hf] at h
    exact get_line_bits_some _ _ _ _ _ _ _ _ _ h

theorem decode_line_fold_some (prbs frame : List Nat) (width height : Int) (ls : List Nat) :
    ∀ (s r : List Nat × Nat),
    ls.foldlM (decode_line prbs frame width height) s = some r →
    r.1.length = s.1.length ∧ r.2 = s.2 + 99 * ls.length ∧
    (1 ≤ ls.length → (s.2 + 99 * ls.length - 1) / 8 < s.1.length) := by
  induction ls with
  | nil =>
    intro s r h
    have e : r = s := (Option.some.inj h).symm
    subst e
    exact ⟨rfl, rfl, fun h1 => absurd h1 (by decide)⟩
  | cons l rest ih =>
    intro s r h
    rw [List.foldlM_cons] at h
    obtain ⟨s1, hs1, hr⟩ := Option.bind_eq_some.1 h
    obtain ⟨a1, a2, a3⟩ := decode_line_some prbs frame width height s s1 l hs1
    obtain ⟨b1, b2, b3⟩ := ih s1 r hr
    refine ⟨by rw [b1, a1], by rw [b2, a2, List.length_cons]; omega, fun _ => ?_⟩
    rw [List.length_cons]
    rcases Nat.eq_zero_or_pos rest.length with hn | hn
    · rw [hn]
      exact a3
    · have := b3 hn
      rw [a1, a2] at this
      have e : s.2 + 99 + 99 * rest.length - 1 = s.2 + 99 * (rest.length + 1) - 1 := by omega
      rw [← e]
      exact this

theorem decode_lines_eq (prbs data frame : List Nat) (width height : Int) :
    decode_lines prbs data frame width height =
      (List.range' 1 (height.toNat - 1)).foldlM (decode_line prbs frame width height)
        (data, 0) := by
  have h1 : height / ((OVERSAMPLING : Nat) : Int) = height := by simp
  have h2 : List.range' 1 (TOP_LINE - 1) = [] := by decide
  unfold decode_lines
  rw [h1, h2]
  rfl

/-- A run of the line loop of `decode_frame` that returns has written
`99 * (height - 1)` bits, the last of them inside the buffer. -/
theorem decode_lines_some (prbs data frame : List Nat) (width height : Int)
    (r : List Nat × Nat) (h : decode_lines prbs data frame width height = some r) :
    r.1.length = data.length ∧ r.2 = 99 * (height.toNat - 1) ∧
    (2 ≤ height.toNat → (99 * (height.toNat - 1) - 1) / 8 < data.length) := by
  rw [decode_lines_eq] at h
  obtain ⟨a1, a2, a3⟩ := decode_line_fold_some prbs frame width height _ _ r h
  rw [List.length_range'] at a2 a3
  simp only [Nat.zero_add] at a2 a3
  exact ⟨a1, a2, fun h2 => a3 (by omega)⟩

/-- C20 fails on the code: the buffer of `12 * height` bytes holds 96 bits per
line, and the line loop writes 99. For every raster of height 34 or more the
last byte index written, `(99 * (height - 1) - 1) / 8`, is at least
`12 * height`, so the line loop cannot complete without a write outside the
buffer (the embedding returns `none`); up to height 33 the index is inside. -/
theorem line_loop_overflows_buffer (prbs data frame : List Nat) (width : Int) (h : Nat)
    (hh : 34 ≤ h) (hlen : data.length = 12 * h) :
    12 * h ≤ (99 * (h - 1) - 1) / 8 ∧
    decode_lines prbs data frame width (h : Int) = none ∧
    (∀ h0, 2 ≤ h0 → h0 ≤ 33 → (99 * (h0 - 1) - 1) / 8 < 12 * h0) := by
  refine ⟨by omega, ?_, fun h0 h1 h2 => by omega⟩
  cases hd : decode_lines prbs data frame width (h : Int) with
  | none => rfl
  | some r =>
    obtain ⟨_, _, a3⟩ := decode_lines_some prbs data frame width h r hd
    rw [Int.toNat_natCast, hlen] at a3
    have := a3 (by omega)
    omega

/-- Witness of the failure of C20 at height 34, the least height that
overflows the buffer. -/
theorem line_loop_overflows_buffer_witness :
    34 ≤ 34 ∧ (List.replicate (12 * 34) 0).length = 12 * 34 ∧
    (12 * 34 ≤ (99 * (34 - 1) - 1) / 8 ∧
    decode_lines prbs_init (List.replicate (12 * 34) 0) (List.replicate (221 * 34) 0xFF) 221
      ((34 : Nat) : Int) = none ∧
    (∀ h0, 2 ≤ h0 → h0 ≤ 33 → (99 * (h0 - 1) - 1) / 8 < 12 * h0)) :=
  ⟨by decide, List.length_replicate _ _,
    line_loop_overflows_buffer prbs_init (List.replicate (12 * 34) 0)
      (List.replicate (221 * 34) 0xFF) 221 34 (by decide) (List.length_replicate _ _)⟩

theorem find_hsync_returns (W H : Nat) (line : Int) (frame : List Nat)
    (hl1 : 1 ≤ line) (hl2 : line ≤ (H : Int) - 1) (hlen : frame.length = W * H) :
    ∃ r, find_hsync line W H frame = some r := by
  by_cases hex : ∃ j, j < W - 12 ∧
      is_sync (sync_word_at W frame ((H : Int) - line).toNat j) = true
  · obtain ⟨j0, hj0, hm, hmin⟩ := first_match_exists
      (fun j => is_sync (sync_word_at W frame ((H : Int) - line).toNat j)) (W - 12) hex
    exact ⟨_, find_hsync_at_first W H line frame hl1 hl2 hlen j0 hj0 hm hmin⟩
  · have hno : ∀ j, j < W - 12 →
        is_sync (sync_word_at W frame ((H : Int) - line).toNat j) = false := by
      intro j hj
      cases hs : is_sync (sync_word_at W frame ((H : Int) - line).toNat j)
      · rfl
      · exact absurd ⟨j, hj, hs⟩ hex
    exact ⟨_, find_hsync_no_match W H line frame hl1 hl2 hlen hno⟩

/-- The line loop over the lines `a, ..., a + n - 1` returns when every line
finds its raster reads inside the raster, its seed inside the scrambler table
and its 99 stream positions inside the buffer. -/
theorem decode_line_fold_returns (prbs frame : List Nat) (W H : Nat)
    (hlen : frame.length = W * H) (hprbs : prbs.length = 625)
    (hrd : ∀ l : Nat, 1 ≤ l → l < H → ∀ r, find_hsync (l : Int) W H frame = some r →
      ∀ k : Nat, k < 99 →
        0 ≤ sample_index (l : Int) W H (start_pos (int_of_uint64 r)) k ∧
        sample_index (l : Int) W H (start_pos (int_of_uint64 r)) k < (frame.length : Int))
    (n : Nat) : ∀ (a : Nat) (data : List Nat) (offset : Nat),
    1 ≤ a → a + n ≤ H → a + n ≤ 626 → offset + 99 * n ≤ 8 * data.length →
    ∃ data1, (List.range' a n).foldlM (decode_line prbs frame W H) (data, offset) =
        some (data1, offset + 99 * n) ∧ data1.length = data.length := by
  induction n with
  | zero =>
    intro a data offset _ _ _ _
    exact ⟨data, rfl, rfl⟩
  | succ n ih =>
    intro a data offset ha hH h626 hbuf
    obtain ⟨r, hr⟩ := find_hsync_returns W H (a : Int) frame (by omega) (by omega) hlen
    have hseed : readFrame prbs ((TOP_LINE : Int) + (a : Int) - 2) =
        some (prbs.getD ((TOP_LINE : Int) + (a : Int) - 2).toNat 0) :=
      readFrame_inside_int prbs _ (by simp only [Nat.cast_one]; omega)
        (by rw [hprbs]; simp only [Nat.cast_one]; omega)
    obtain ⟨d1, hg, hl1, _, _⟩ := get_line_bits_descrambles prbs data (a : Int) W H
      (start_pos (int_of_uint64 r)) frame offset _ hseed
      (fun k hk => hrd a ha (by omega) r hr k hk) (by omega)
    have hstep : decode_line prbs frame W H (data, offset) a = some (d1, offset + 99) := by
      simp only [decode_line, hr, hg]
    obtain ⟨d2, hf, hl2⟩ := ih (a + 1) d1 (offset + 99) (by omega) (by omega) (by omega)
      (by rw [hl1]; omega)
    refine ⟨d2, ?_, by rw [hl2, hl1]⟩
    rw [List.range'_succ, List.foldlM_cons, hstep]
    simp only [Option.bind_eq_bind, Option.some_bind]
    rw [hf]
    congr 2
    omega

/-- C11, amended. `get_line_bits` appends exactly 99 bits per line on every
call that stays inside its objects: whatever its arguments, a call that returns
gives `offset + 99`, and every run of the line loop of `decode_frame` that
returns ends at the write offset `99 * (height - 1)`. For a raster of height
`1 <= h <= 626` the loop does return, with the offset exactly `99 * (h - 1)`
(one 99-bit group for each data line `1..h-1`, no zero-filled line since
`TOP_LINE = 1`), whenever the 99 raster reads of each line are inside the
raster, the table has its 625 seeds and the buffer holds the `99 * (h - 1)`
bits. -/
theorem line_loop_offset (prbs data frame : List Nat) (W h : Nat)
    (hh : 1 ≤ h) (h626 : h ≤ 626) (hlen : frame.length = W * h)
    (hprbs : prbs.length = 625) (hbuf : 99 * (h - 1) ≤ 8 * data.length)
    (hrd : ∀ l : Nat, 1 ≤ l → l < h → ∀ r, find_hsync (l : Int) W h frame = some r →
      ∀ k : Nat, k < 99 →
        0 ≤ sample_index (l : Int) W h (start_pos (int_of_uint64 r)) k ∧
        sample_index (l : Int) W h (start_pos (int_of_uint64 r)) k < (frame.length : Int)) :
    (∃ data1, decode_lines prbs data frame W h = some (data1, 99 * (h - 1)) ∧
      data1.length = data.length) ∧
    (∀ (p d f : List Nat) (ln w ht ps : Int) (o poly : Nat),
      readFrame p ((TOP_LINE : Int) + ln - 2) = some poly →
      (∀ k : Nat, k < 99 → 0 ≤ sample_index ln w ht ps k ∧
        sample_index ln w ht ps k < (f.length : Int)) →
      (o + 98) / 8 < d.length →
      ∃ d1, get_line_bits p d ln w ht ps f o = some (d1, o + 99) ∧ d1.length = d.length) ∧
    (∀ (p d f : List Nat) (ln w ht ps : Int) (o : Nat) (r : List Nat × Nat),
      get_line_bits p d ln w ht ps f o = some r → r.2 = o + 99) ∧
    (∀ (p d f : List Nat) (w ht : Int) (r : List Nat × Nat),
      decode_lines p d f w ht = some r → r.2 = 99 * (ht.toNat - 1)) := by
  refine ⟨?_, fun p d f ln w ht ps o poly hseed hrd1 hin => ?_,
    fun p d f ln w ht ps o r hr => (get_line_bits_some p d ln w ht ps f o r hr).2.1,
    fun p d f w ht r hr => (decode_lines_some p d f w ht r hr).2.1⟩
  swap
  · obtain ⟨d1, hg, hl1, _, _⟩ :=
      get_line_bits_descrambles p d ln w ht ps f o poly hseed hrd1 hin
    exact ⟨d1, hg, hl1⟩
  obtain ⟨d1, hf, hl⟩ := decode_line_fold_returns prbs frame W h hlen hprbs hrd (h - 1) 1 data 0
    (le_refl 1) (by omega) (by omega) (by omega)
  refine ⟨d1, ?_, hl⟩
  rw [decode_lines_eq, Int.toNat_natCast, hf, Nat.zero_add]

theorem wide_raster_length : wide_raster.length = 209 * 2 := by
  unfold wide_raster
  simp only [List.length_append, List.length_replicate, List.length_cons, List.length_nil]

theorem wide_raster_sync :
    find_hsync ((1 : Nat) : Int) (209 : Nat) (2 : Nat) wide_raster =
      some (uint64_of_int (((0 : Nat) : Int) - 1)) :=
  find_hsync_at_first 209 2 ((1 : Nat) : Int) wide_raster (by decide) (by decide)
    wide_raster_length 0 (by decide) (by decide) (fun j hj => absurd hj (Nat.not_lt_zero j))

theorem wide_raster_reads (l : Nat) (h1 : 1 ≤ l) (h2 : l < 2) (r : Nat)
    (hr : find_hsync (l : Int) (209 : Nat) (2 : Nat) wide_raster = some r)
    (k : Nat) (hk : k < 99) :
    0 ≤ sample_index (l : Int) (209 : Nat) (2 : Nat) (start_pos (int_of_uint64 r)) k ∧
    sample_index (l : Int) (209 : Nat) (2 : Nat) (start_pos (int_of_uint64 r)) k <
      (wide_raster.length : Int) := by
  have hl : l = 1 := by omega
  subst hl
  rw [wide_raster_sync] at hr
  have hr2 : r = uint64_of_int (((0 : Nat) : Int) - 1) := (Option.some.inj hr).symm
  subst hr2
  have hs : start_pos (int_of_uint64 (uint64_of_int (((0 : Nat) : Int) - 1))) = 12 := by
    decide
  have hS : ((SPS : Nat) : Int) = 2 := by decide
  rw [hs, wide_raster_length]
  unfold sample_index
  rw [hS]
  push_cast
  constructor <;> omega

/-- Witness of the amended C11 on `wide_raster` with the table of `prbs_init` and a buffer
of `12 * 2` bytes. -/
theorem line_loop_offset_witness :
    1 ≤ 2 ∧ 2 ≤ 626 ∧ wide_raster.length = 209 * 2 ∧ prbs_init.length = 625 ∧
    99 * (2 - 1) ≤ 8 * (List.replicate 24 0).length ∧
    ((∃ data1, decode_lines prbs_init (List.replicate 24 0) wide_raster (209 : Nat) (2 : Nat) =
        some (data1, 99 * (2 - 1)) ∧ data1.length = (List.replicate 24 0).length) ∧
    (∀ (p d f : List Nat) (ln w ht ps : Int) (o poly : Nat),
      readFrame p ((TOP_LINE : Int) + ln - 2) = some poly →
      (∀ k : Nat, k < 99 → 0 ≤ sample_index ln w ht ps k ∧
        sample_index ln w ht ps k < (f.length : Int)) →
      (o + 98) / 8 < d.length →
      ∃ d1, get_line_bits p d ln w ht ps f o = some (d1, o + 99) ∧ d1.length = d.length) ∧
    (∀ (p d f : List Nat) (ln w ht ps : Int) (o : Nat) (r : List Nat × Nat),
      get_line_bits p d ln w ht ps f o = some r → r.2 = o + 99) ∧
    (∀ (p d f : List Nat) (w ht : Int) (r : List Nat × Nat),
      decode_lines p d f w ht = some r → r.2 = 99 * (ht.toNat - 1))) :=
  ⟨by decide, by decide, wide_raster_length, prbs_init_length, by decide,
    line_loop_offset prbs_init (List.replicate 24 0) wide_raster 209 2 (by decide) (by decide)
      wide_raster_length prbs_init_length (by decide) wide_raster_reads⟩

/-! ## Lines without a sync match -/

theorem readFrame_outside (frame : List Nat) (f : Int) (h : (frame.length : Int) ≤ f) :
    readFrame frame f = none := by
  unfold readFrame
  rw [if_pos (by omega)]
  exact List.getElem?_eq_none (by omega)

theorem start_pos_eq (hoffset : Int) : start_pos hoffset = hoffset + 12 + 1 := by
  have h1 : ((6 * MAC_SAMPLE_RATE / D2MAC_SAMPLE_RATE * OVERSAMPLING : Nat) : Int) = 12 := by
    decide
  have h2 : ((MAC_SAMPLE_RATE / D2MAC_SAMPLE_RATE * OVERSAMPLING / 2 : Nat) : Int) = 1 := by
    decide
  unfold start_pos
  rw [h1, h2]

theorem get_line_bits_first_read_outside (prbs data frame : List Nat)
    (line width height pos : Int) (offset : Nat)
    (hout : readFrame frame (pos + width * (height - line)) = none) :
    get_line_bits prbs data line width height pos frame offset = none := by
  have hline : line * ((OVERSAMPLING : Nat) : Int) - ((OVERSAMPLING / 2 : Nat) : Int) = line := by
    simp
  unfold get_line_bits
  cases hp : readFrame prbs ((TOP_LINE : Int) + line - 2) with
  | none => rfl
  | some poly =>
    simp only [hline]
    have hstep : get_line_bits_step line width height frame (data, pos, poly, offset) = none := by
      simp only [get_line_bits_step, hout]
    have h99 : iterM (get_line_bits_step line width height frame) 99 (data, pos, poly, offset) =
        none := by
      rw [iterM_succ, hstep]
      rfl
    rw [h99]
    rfl

/-- On data line 1 of any raster, a scan without a match sends `get_line_bits`
to the start position `width`, whose first sample index is `width * height`,
the first index behind the raster. -/
theorem unsynced_first_line (prbs data frame : List Nat) (W H : Nat) (offset : Nat)
    (hW : 13 ≤ W) (hH : 2 ≤ H) (hlen : frame.length = W * H) (hsz : W * H < 2 ^ 31)
    (hno : ∀ j, j < W - 12 →
      is_sync (sync_word_at W frame ((H : Int) - 1).toNat j) = false) :
    ∃ r, find_hsync 1 W H frame = some r ∧ int_of_uint64 r = (W : Int) - 13 ∧
      start_pos (int_of_uint64 r) = (W : Int) ∧
      sample_index 1 W H (start_pos (int_of_uint64 r)) 0 = ((W * H : Nat) : Int) ∧
      get_line_bits prbs data 1 W H (start_pos (int_of_uint64 r)) frame offset = none := by
  have hWlt := raster_width_lt W H 1 (le_refl 1) (by omega) hsz
  have hr := find_hsync_no_match W H 1 frame (le_refl 1) (by omega) hlen hno
  have hi : int_of_uint64 (uint64_of_int (((W - 12 : Nat) : Int) - 1)) = (W : Int) - 13 := by
    rw [int_of_uint64_pred (W - 12) (by omega)]
    omega
  have hs : start_pos (int_of_uint64 (uint64_of_int (((W - 12 : Nat) : Int) - 1))) =
      (W : Int) := by
    rw [start_pos_eq, hi]
    omega
  have hidx : (W : Int) + (W : Int) * ((H : Int) - 1) = ((W * H : Nat) : Int) := by
    push_cast
    ring
  refine ⟨_, hr, hi, hs, ?_, ?_⟩
  · rw [hs]
    unfold sample_index
    rw [Nat.cast_zero, mul_zero, add_zero, hidx]
  · rw [hs]
    apply get_line_bits_first_read_outside
    rw [hidx]
    exact readFrame_outside frame _ (by rw [hlen])

/-- C15 fails on the code, on data line 1. On `grey_raster` (13 columns, 2
rows) line 1 has no sync match, `find_hsync` returns the sentinel
`width - 13 = 0`, `decode_frame` computes the start position `0 + 13 = width`,
and the first sample index of `get_line_bits` is `13 + 13 * (2 - 1) = 26`, the
size of the raster: the read is outside `[0, width * height)` and the call does
not yield the 99 bits, whatever the table, the buffer and the offset. -/
theorem unsynced_line_reads_outside_raster :
    grey_raster.length = 13 * 2 ∧
    (∀ j, j < 13 - 12 → is_sync (sync_word_at 13 grey_raster 1 j) = false) ∧
    find_hsync 1 13 2 grey_raster = some 0 ∧
    start_pos (int_of_uint64 0) = 13 ∧
    sample_index 1 13 2 (start_pos (int_of_uint64 0)) 0 = 26 ∧
    readFrame grey_raster 26 = none ∧
    (∀ (prbs data : List Nat) (offset : Nat),
      get_line_bits prbs data 1 13 2 (start_pos (int_of_uint64 0)) grey_raster offset =
        none) := by
  refine ⟨by decide, by decide, by decide, by decide, by decide, by decide, ?_⟩
  intro prbs data offset
  apply get_line_bits_first_read_outside
  decide

/-! ## Lines beyond the scrambler table -/

theorem get_line_bits_seed_outside (prbs data frame : List Nat)
    (line width height pos : Int) (offset : Nat)
    (hout : readFrame prbs ((TOP_LINE : Int) + line - 2) = none) :
    get_line_bits prbs data line width height pos frame offset = none := by
  unfold get_line_bits
  rw [hout]

theorem prbs_init_no_seed_627 :
    readFrame prbs_init ((TOP_LINE : Int) + 627 - 2) = none := by
  apply readFrame_outside
  rw [prbs_init_length]
  decide

theorem decode_line_627 (frame : List Nat) (width height : Int) (s : List Nat × Nat) :
    decode_line prbs_init frame width height s 627 = none := by
  unfold decode_line
  cases hf : find_hsync ((627 : Nat) : Int) width height frame with
  | none => rfl
  | some r =>
    exact get_line_bits_seed_outside prbs_init s.1 frame _ width height _ s.2
      prbs_init_no_seed_627

theorem foldlM_last_none {σ : Type} (f : σ → Nat → Option σ) (ls : List Nat) (a : Nat)
    (hnone : ∀ s, f s a = none) (s : σ) : (ls ++ [a]).foldlM f s = none := by
  rw [List.foldlM_append]
  cases hs : ls.foldlM f s with
  | none => rfl
  | some s1 =>
    simp only [Option.bind_eq_bind, Option.some_bind, List.foldlM_cons, hnone,
      Option.none_bind]

/-- C11, as stated, fails: not every input makes `get_line_bits` return
`offset + 99`, and not every height gives the line loop an offset. The
scrambler table `prbs[625]` has a seed for the lines 1..625 only: for line 627
the seed index `TOP_LINE + line - 2 = 626` is outside the table, so the call has
no result, whatever the raster, the buffer, the start position and the offset;
and on a raster of height 628 the line loop reaches line 627 and has no result
either, however large the buffer. -/
theorem line_loop_every_input_counterexample :
    prbs_init.length = 625 ∧
    readFrame prbs_init ((TOP_LINE : Int) + 627 - 2) = none ∧
    (∀ (data frame : List Nat) (w h pos : Int) (o : Nat),
      get_line_bits prbs_init data 627 w h pos frame o = none) ∧
    get_line_bits prbs_init (List.replicate (13 * 628) 0) 627 221 628 13
      (List.replicate (221 * 628) 0xFF) 0 = none ∧
    (∀ (data frame : List Nat) (w : Int), decode_lines prbs_init data frame w 628 = none) ∧
    ¬ (∀ (p d f : List Nat) (ln w ht ps : Int) (o : Nat),
      ∃ d1, get_line_bits p d ln w ht ps f o = some (d1, o + 99)) ∧
    ¬ (∀ (p d f : List Nat) (w : Int) (h : Nat), 1 ≤ h →
      ∃ d1, decode_lines p d f w (h : Int) = some (d1, 99 * (h - 1))) := by
  have hg : ∀ (data frame : List Nat) (w h pos : Int) (o : Nat),
      get_line_bits prbs_init data 627 w h pos frame o = none :=
    fun data frame w h pos o =>
      get_line_bits_seed_outside prbs_init data frame 627 w h pos o prbs_init_no_seed_627
  have hd : ∀ (data frame : List Nat) (w : Int),
      decode_lines prbs_init data frame w 628 = none := by
    intro data frame w
    have hr : List.range' 1 ((628 : Int).toNat - 1) = List.range' 1 626 ++ [627] :=
      List.range'_1_concat 1 626
    rw [decode_lines_eq, hr]
    exact foldlM_last_none _ _ 627 (fun s => decode_line_627 frame w 628 s) _
  refine ⟨prbs_init_length, prbs_init_no_seed_627, hg, hg _ _ _ _ _ _, hd, ?_, ?_⟩
  · intro hall
    obtain ⟨d1, h1⟩ := hall prbs_init [] [] 627 0 0 0 0
    rw [hg] at h1
    exact Option.noConfusion h1
  · intro hall
    obtain ⟨d1, h1⟩ := hall prbs_init [] [] 0 628 (by decide)
    have h2 := hd [] [] 0
    rw [show ((628 : Nat) : Int) = 628 from rfl, h2] at h1
    exact Option.noConfusion h1

/-! ## The stream ranges of the data lines -/

theorem mem_line_offsets (l p : Nat) :
    p ∈ line_offsets l ↔ 99 * (l - 1) ≤ p ∧ p < 99 * (l - 1) + 99 := by
  unfold line_offsets
  exact List.mem_range'_1

theorem mem_line_bytes (l c : Nat) :
    c ∈ line_bytes l ↔ ∃ p, (99 * (l - 1) ≤ p ∧ p < 99 * (l - 1) + 99) ∧ p / 8 = c := by
  unfold line_bytes
  rw [List.mem_map]
  constructor
  · rintro ⟨p, hp, hc⟩
    rw [Nat.shiftRight_eq_div_pow] at hc
    exact ⟨p, (mem_line_offsets l p).1 hp, hc⟩
  · rintro ⟨p, hp, hc⟩
    refine ⟨p, (mem_line_offsets l p).2 hp, ?_⟩
    rw [Nat.shiftRight_eq_div_pow]
    exact hc

/-- C17, as stated, fails: data lines 1 and 2 both write byte 12 of the
buffer, line 1 with its last bits (stream offsets 96..98) and line 2 with its
first (offsets 99..103). -/
theorem line_bytes_overlap_counterexample :
    98 ∈ line_offsets 1 ∧ 99 ∈ line_offsets 2 ∧ 98 >>> 3 = 12 ∧ 99 >>> 3 = 12 ∧
    12 ∈ line_bytes 1 ∧ 12 ∈ line_bytes 2 ∧
    ¬ (∀ a b, 1 ≤ a → 1 ≤ b → a ≠ b → ∀ c, c ∈ line_bytes a → c ∉ line_bytes b) := by
  refine ⟨by decide, by decide, by decide, by decide, by decide, by decide, ?_⟩
  intro h
  exact h 1 2 (by decide) (by decide) (by decide) 12 (by decide) (by decide)

/-- C17, amended. Each data line owns a disjoint bit range of the bitstream
buffer, not a disjoint byte range: for data lines `a < b` (`a >= 1`) the stream
offsets `[99 (a-1), 99 a)` and `[99 (b-1), 99 b)` are disjoint, and a single-bit
`_rbits` write at an offset of one line leaves every bit of the other line
unchanged. The byte index sets meet exactly when the lines are consecutive and
`a` is not a multiple of 8, and then only in the byte `99 a / 8`. -/
theorem line_ranges (a b : Nat) (ha : 1 ≤ a) (hab : a < b) :
    (∀ p, p ∈ line_offsets a → p ∉ line_offsets b) ∧
    ((∃ c, c ∈ line_bytes a ∧ c ∈ line_bytes b) ↔ (b = a + 1 ∧ a % 8 ≠ 0)) ∧
    (∀ c, c ∈ line_bytes a → c ∈ line_bytes b → c = 99 * a / 8) ∧
    (∀ (data : List Nat) (v p : Nat) (r : List Nat × Nat), p ∈ line_offsets a →
      _rbits data p v 1 = some r → ∀ q, q ∈ line_offsets b → bufBit r.1 q = bufBit data q) ∧
    (∀ (data : List Nat) (v p : Nat) (r : List Nat × Nat), p ∈ line_offsets b →
      _rbits data p v 1 = some r → ∀ q, q ∈ line_offsets a → bufBit r.1 q = bufBit data q) := by
  refine ⟨?_, ⟨?_, ?_⟩, ?_, ?_, ?_⟩
  · intro p hp hq
    rw [mem_line_offsets] at hp hq
    omega
  · rintro ⟨c, hca, hcb⟩
    obtain ⟨p, hp, hpc⟩ := (mem_line_bytes a c).1 hca
    obtain ⟨q, hq, hqc⟩ := (mem_line_bytes b c).1 hcb
    omega
  · rintro ⟨hb, h8⟩
    subst hb
    have hmod : 99 * a % 8 = 99 % 8 * (a % 8) % 8 := Nat.mul_mod 99 a 8
    have h99 : 99 * a % 8 ≠ 0 := by
      have hlt : a % 8 < 8 := Nat.mod_lt _ (by decide)
      rw [hmod]
      interval_cases a % 8 <;> simp at h8 ⊢
    refine ⟨99 * a / 8, (mem_line_bytes a _).2 ⟨99 * a - 1, by omega, by omega⟩,
      (mem_line_bytes (a + 1) _).2 ⟨99 * a, by omega, rfl⟩⟩
  · intro c hca hcb
    obtain ⟨p, hp, hpc⟩ := (mem_line_bytes a c).1 hca
    obtain ⟨q, hq, hqc⟩ := (mem_line_bytes b c).1 hcb
    omega
  · intro data v p r hp hw q hq
    rw [mem_line_offsets] at hp hq
    rw [(rbits_one_some data p v r hw).2.2.2 q, if_neg (by omega)]
  · intro data v p r hp hw q hq
    rw [mem_line_offsets] at hp hq
    rw [(rbits_one_some data p v r hw).2.2.2 q, if_neg (by omega)]

/-- Witness of the amended C17 at the data lines 1 and 2. -/
theorem line_ranges_witness :
    1 ≤ 1 ∧ 1 < 2 ∧
    ((∀ p, p ∈ line_offsets 1 → p ∉ line_offsets 2) ∧
    ((∃ c, c ∈ line_bytes 1 ∧ c ∈ line_bytes 2) ↔ (2 = 1 + 1 ∧ 1 % 8 ≠ 0)) ∧
    (∀ c, c ∈ line_bytes 1 → c ∈ line_bytes 2 → c = 99 * 1 / 8) ∧
    (∀ (data : List Nat) (v p : Nat) (r : List Nat × Nat), p ∈ line_offsets 1 →
      _rbits data p v 1 = some r → ∀ q, q ∈ line_offsets 2 → bufBit r.1 q = bufBit data q) ∧
    (∀ (data : List Nat) (v p : Nat) (r : List Nat × Nat), p ∈ line_offsets 2 →
      _rbits data p v 1 = some r → ∀ q, q ∈ line_offsets 1 → bufBit r.1 q = bufBit data q)) :=
  ⟨by decide, by decide, line_ranges 1 2 (by decide) (by decide)⟩

/-! ## The sample grid of a data line -/

theorem sample_index_succ (line width height pos : Int) (k : Nat) :
    sample_index line width height pos (k + 1) =
      sample_index line width height (pos + (SPS : Int)) k := by
  unfold sample_index
  push_cast
  ring

/-- The raw bits of a line are the bits of the samples at the raster indices
`sample_index .. k`, `k = 0 .. n - 1`. -/
theorem line_samples_eq (line width height : Int) (frame : List Nat) (n : Nat) :
    ∀ pos : Int, line_samples line width height frame n pos =
      (List.range n).map (fun k =>
        (sample_bit (frame.getD (sample_index line width height pos k).toNat 0)).toNat) := by
  induction n with
  | zero =>
    intro pos
    rfl
  | succ n ih =>
    intro pos
    rw [List.range_succ_eq_map, List.map_cons, List.map_map]
    unfold line_samples
    rw [ih (pos + (SPS : Int))]
    congr 1
    · unfold sample_index
      rw [Nat.cast_zero, mul_zero, add_zero]
    · apply List.map_congr_left
      intro k _
      simp only [Function.comp, sample_index_succ]

/-- C18. Data bits are sampled on the sync word's own sample grid, starting
just past it. With `SPS` expanded textually the start position is
`hoffset + 12 + 1`; so for a line whose sync word first matches at column `j`
(`find_hsync` gives `j - 1`) the `k`-th data sample, `k = 0..98`, is read at
raster index `(j + 12 + 2 k) + width * (height - line)`, column
`j + 2 (6 + k)` of the row `height - line` of the sync samples
`j + 2 i`, `i = 0..5`; and all 99 samples lie in that row exactly when
`j + 208 < width`. -/
theorem data_samples_on_sync_grid (W H : Nat) (line : Int) (frame : List Nat)
    (hW : 13 ≤ W) (hl1 : 1 ≤ line) (hl2 : line ≤ (H : Int) - 1)
    (hlen : frame.length = W * H) (hsz : W * H < 2 ^ 31)
    (j : Nat) (hj : j < W - 12)
    (hm : is_sync (sync_word_at W frame ((H : Int) - line).toNat j) = true)
    (hmin : ∀ i, i < j → is_sync (sync_word_at W frame ((H : Int) - line).toNat i) = false) :
    ∃ r, find_hsync line W H frame = some r ∧ int_of_uint64 r = (j : Int) - 1 ∧
      start_pos (int_of_uint64 r) = int_of_uint64 r + 12 + 1 ∧
      (∀ k : Nat, sample_index line W H (start_pos (int_of_uint64 r)) k =
        ((j + 12 + 2 * k : Nat) : Int) + (W : Int) * ((H : Int) - line)) ∧
      (∀ k : Nat, (sample_index line W H (start_pos (int_of_uint64 r)) k).toNat =
        W * ((H : Int) - line).toNat + (j + 2 * (6 + k))) ∧
      line_samples line W H frame 99 (start_pos (int_of_uint64 r)) =
        (List.range 99).map (fun k =>
          (sample_bit (frame.getD (W * ((H : Int) - line).toNat + (j + 2 * (6 + k))) 0)).toNat) ∧
      ((∀ k : Nat, k < 99 →
          (sample_index line W H (start_pos (int_of_uint64 r)) k).toNat / W =
            ((H : Int) - line).toNat) ↔ j + 208 < W) := by
  have hWlt := raster_width_lt W H line hl1 hl2 hsz
  have hr := find_hsync_at_first W H line frame hl1 hl2 hlen j hj hm hmin
  have hi := int_of_uint64_pred j (by omega)
  have hS : ((SPS : Nat) : Int) = 2 := by decide
  have hidx : ∀ k : Nat, sample_index line W H
      (start_pos (int_of_uint64 (uint64_of_int ((j : Int) - 1)))) k =
      ((j + 12 + 2 * k : Nat) : Int) + (W : Int) * ((H : Int) - line) := by
    intro k
    unfold sample_index
    rw [start_pos_eq, hi, hS]
    push_cast
    ring
  have hnat : ∀ k : Nat, (sample_index line W H
      (start_pos (int_of_uint64 (uint64_of_int ((j : Int) - 1)))) k).toNat =
      W * ((H : Int) - line).toNat + (j + 2 * (6 + k)) := by
    intro k
    rw [hidx k, frame_index W H line (j + 12 + 2 * k) hl2, Int.toNat_natCast]
    omega
  refine ⟨_, hr, hi, start_pos_eq _, hidx, hnat, ?_, ?_⟩
  · rw [line_samples_eq]
    apply List.map_congr_left
    intro k _
    rw [hnat k]
  · have hWpos : 0 < W := by omega
    have hrow : ∀ c : Nat, (W * ((H : Int) - line).toNat + c) / W = ((H : Int) - line).toNat ↔
        c < W := by
      intro c
      rw [Nat.mul_add_div hWpos]
      constructor
      · intro h
        have h0 : c / W = 0 := by omega
        exact (Nat.div_eq_zero_iff hWpos).1 h0
      · intro h
        rw [(Nat.div_eq_zero_iff hWpos).2 h]
        rfl
    constructor
    · intro h
      have h98 := h 98 (by decide)
      rw [hnat 98, hrow] at h98
      omega
    · intro h k hk
      rw [hnat k, hrow]
      omega

/-- Witness of C18 on `sync_raster`, whose line 1 first matches at column 1. -/
theorem data_samples_on_sync_grid_witness :
    13 ≤ 14 ∧ (1 : Int) ≤ 1 ∧ (1 : Int) ≤ ((2 : Nat) : Int) - 1 ∧
    sync_raster.length = 14 * 2 ∧ 14 * 2 < 2 ^ 31 ∧ 1 < 14 - 12 ∧
    is_sync (sync_word_at 14 sync_raster (((2 : Nat) : Int) - 1).toNat 1) = true ∧
    (∀ i, i < 1 →
      is_sync (sync_word_at 14 sync_raster (((2 : Nat) : Int) - 1).toNat i) = false) ∧
    ∃ r, find_hsync 1 (14 : Nat) (2 : Nat) sync_raster = some r ∧
      int_of_uint64 r = ((1 : Nat) : Int) - 1 ∧
      start_pos (int_of_uint64 r) = int_of_uint64 r + 12 + 1 ∧
      (∀ k : Nat, sample_index 1 (14 : Nat) (2 : Nat) (start_pos (int_of_uint64 r)) k =
        ((1 + 12 + 2 * k : Nat) : Int) + ((14 : Nat) : Int) * (((2 : Nat) : Int) - 1)) ∧
      (∀ k : Nat, (sample_index 1 (14 : Nat) (2 : Nat) (start_pos (int_of_uint64 r)) k).toNat =
        14 * (((2 : Nat) : Int) - 1).toNat + (1 + 2 * (6 + k))) ∧
      line_samples 1 (14 : Nat) (2 : Nat) sync_raster 99 (start_pos (int_of_uint64 r)) =
        (List.range 99).map (fun k =>
          (sample_bit (sync_raster.getD
            (14 * (((2 : Nat) : Int) - 1).toNat + (1 + 2 * (6 + k))) 0)).toNat) ∧
      ((∀ k : Nat, k < 99 →
          (sample_index 1 (14 : Nat) (2 : Nat) (start_pos (int_of_uint64 r)) k).toNat / 14 =
            (((2 : Nat) : Int) - 1).toNat) ↔ 1 + 208 < 14) :=
  ⟨by decide, by decide, by decide, by decide, by decide, by decide, by decide, by decide,
    data_samples_on_sync_grid 14 2 1 sync_raster (by decide) (by decide) (by decide)
      (by decide) (by decide) 1 (by decide) (by decide) (by decide)⟩

/-! ## The interleave of the transmitter -/

theorem byte_of_bits (b0 b1 b2 b3 b4 b5 b6 b7 : Bool) :
    b0.toNat * 2 ^ 0 + (b1.toNat * 2 ^ 1 + (b2.toNat * 2 ^ 2 + (b3.toNat * 2 ^ 3 +
      (b4.toNat * 2 ^ 4 + (b5.toNat * 2 ^ 5 + (b6.toNat * 2 ^ 6 +
      (b7.toNat * 2 ^ 7 + 0))))))) < 256 ∧
    ∀ r, r < 8 →
      (b0.toNat * 2 ^ 0 + (b1.toNat * 2 ^ 1 + (b2.toNat * 2 ^ 2 + (b3.toNat * 2 ^ 3 +
        (b4.toNat * 2 ^ 4 + (b5.toNat * 2 ^ 5 + (b6.toNat * 2 ^ 6 +
        (b7.toNat * 2 ^ 7 + 0)))))))).testBit r =
      [b0, b1, b2, b3, b4, b5, b6, b7].getD r false := by
  cases b0 <;> cases b1 <;> cases b2 <;> cases b3 <;> cases b4 <;> cases b5 <;>
    cases b6 <;> cases b7 <;> decide

theorem interleave_length (v : List Nat) : (interleave v).length = 94 := by
  unfold interleave
  rw [List.length_map, List.length_range]

theorem interleave_getD (v : List Nat) (d : Nat) (hd : d < 94) :
    (interleave v).getD d 0 =
      ((List.range 8).map (fun r => (bufBit v (94 * r + d)).toNat * 2 ^ r)).sum := by
  unfold interleave
  rw [List.getD_eq_getElem?_getD, List.getElem?_map, List.getElem?_range hd]
  rfl

theorem interleave_getD_lt (v : List Nat) (c : Nat) (hc : c < 94) :
    (interleave v).getD c 0 < 256 := by
  have hr : List.range 8 = [0, 1, 2, 3, 4, 5, 6, 7] := by decide
  rw [interleave_getD v c hc, hr]
  simp only [List.map_cons, List.map_nil, List.sum_cons, List.sum_nil]
  exact (byte_of_bits _ _ _ _ _ _ _ _).1

theorem interleave_bufBit (v : List Nat) (r d : Nat) (hr : r < 8) (hd : d < 94) :
    bufBit (interleave v) (8 * d + r) = bufBit v (94 * r + d) := by
  have h8 : List.range 8 = [0, 1, 2, 3, 4, 5, 6, 7] := by decide
  have e1 : (8 * d + r) / 8 = d := by omega
  have e2 : (8 * d + r) % 8 = r := by omega
  have hb : bufBit (interleave v) (8 * d + r) = ((interleave v).getD d 0).testBit r := by
    unfold bufBit
    rw [e1, e2]
  rw [hb, interleave_getD v d hd, h8]
  simp only [List.map_cons, List.map_nil, List.sum_cons, List.sum_nil]
  rw [(byte_of_bits _ _ _ _ _ _ _ _).2 r hr]
  interval_cases r <;> rfl

theorem forall_lt_of_getD (v : List Nat) (h : ∀ c, c < v.length → v.getD c 0 < 256) :
    ∀ x ∈ v, x < 256 := by
  intro x hx
  obtain ⟨n, hn, hxn⟩ := List.getElem_of_mem hx
  have := h n hn
  rw [List.getD_eq_getElem?_getD, List.getElem?_eq_getElem hn] at this
  rw [← hxn]
  exact this

/-- Two 94-byte buffers with the same 752 bits are equal. -/
theorem eq_of_bufBit (u v : List Nat) (hu : u.length = 94) (hv : v.length = 94)
    (hub : ∀ c, c < 94 → u.getD c 0 < 256) (hvb : ∀ c, c < 94 → v.getD c 0 < 256)
    (h : ∀ p, p < 752 → bufBit u p = bufBit v p) : u = v := by
  apply List.ext_getElem (by rw [hu, hv])
  intro c hc1 hc2
  have hc : c < 94 := by omega
  have eu : u.getD c 0 = u[c] := by
    rw [List.getD_eq_getElem?_getD, List.getElem?_eq_getElem hc1]
    rfl
  have ev : v.getD c 0 = v[c] := by
    rw [List.getD_eq_getElem?_getD, List.getElem?_eq_getElem hc2]
    rfl
  rw [← eu, ← ev]
  apply Nat.eq_of_testBit_eq
  intro i
  by_cases hi : i < 8
  · have hp := h (8 * c + i) (by omega)
    unfold bufBit at hp
    have e1 : (8 * c + i) / 8 = c := by omega
    have e2 : (8 * c + i) % 8 = i := by omega
    rw [e1, e2] at hp
    exact hp
  · have hpow : 2 ^ 8 ≤ 2 ^ i := Nat.pow_le_pow_right (by decide) (by omega)
    rw [Nat.testBit_lt_two_pow (Nat.lt_of_lt_of_le (hub c hc) hpow),
      Nat.testBit_lt_two_pow (Nat.lt_of_lt_of_le (hvb c hc) hpow)]

/-- The bits of a deinterleaved 94-byte buffer: bit `p` of the result is bit
`8 * (p mod 94) + p / 94` of the argument. -/
theorem deinterleave_bufBit (pkt : List Nat) (hlen : pkt.length = 94)
    (hb : ∀ x ∈ pkt, x < 256) :
    (deinterleave pkt).length = 94 ∧
    (∀ c, c < 94 → (deinterleave pkt).getD c 0 < 256) ∧
    ∀ p, p < 752 → bufBit (deinterleave pkt) p = bufBit pkt (8 * (p % 94) + p / 94) := by
  obtain ⟨hP, _, _, _, hPb, hPv⟩ := deinterleave_loop pkt hlen hb 752 (le_refl _)
  rw [deinterleave_eq pkt hlen]
  refine ⟨hP, hPb, fun p hp => ?_⟩
  unfold bufBit
  rw [hPv _ _ (by omega) (Nat.mod_lt _ (by decide))]
  have e : min 8 (752 - 8 * (p / 8)) = 8 := by omega
  rw [e, if_neg (by omega)]
  have e1 : 8 * (p / 8) + p % 8 + 8 - 8 = p := by omega
  have e4 : (8 * (p % 94) + p / 94) / 8 = p % 94 := by omega
  have e5 : (8 * (p % 94) + p / 94) % 8 = p / 94 := by omega
  rw [e1, e4, e5]

/-- C13. Deinterleaving is invertible on 94-byte buffers: with `interleave` the
inverse bit transposition (bit `8 d + r` of its output is bit `94 r + d` of its
input, for `r` in 0..7 and `d` in 0..93), `deinterleave (interleave v) = v` and
`interleave (deinterleave v) = v` for every 94-byte vector `v`. -/
theorem deinterleave_interleave (v : List Nat) (hlen : v.length = 94)
    (hb : ∀ x ∈ v, x < 256) :
    deinterleave (interleave v) = v ∧ interleave (deinterleave v) = v ∧
    (∀ r d, r < 8 → d < 94 → bufBit (interleave v) (8 * d + r) = bufBit v (94 * r + d)) := by
  have hvb : ∀ c, c < 94 → v.getD c 0 < 256 := fun c _ => getD_lt_of_forall v hb c
  have hib : ∀ x ∈ interleave v, x < 256 :=
    forall_lt_of_getD _ (fun c hc => interleave_getD_lt v c (by rw [interleave_length] at hc; exact hc))
  obtain ⟨hl1, hb1, hbit1⟩ := deinterleave_bufBit (interleave v) (interleave_length v) hib
  obtain ⟨hl2, hb2, hbit2⟩ := deinterleave_bufBit v hlen hb
  refine ⟨?_, ?_, fun r d hr hd => interleave_bufBit v r d hr hd⟩
  · apply eq_of_bufBit _ _ hl1 hlen hb1 hvb
    intro p hp
    have e : 94 * (p / 94) + p % 94 = p := by omega
    rw [hbit1 p hp, interleave_bufBit v (p / 94) (p % 94) (by omega) (Nat.mod_lt _ (by decide)),
      e]
  · apply eq_of_bufBit _ _ (interleave_length _) hlen
      (fun c hc => interleave_getD_lt _ c hc) hvb
    intro p hp
    have e : p = 8 * (p / 8) + p % 8 := by omega
    have e2 : 8 * ((94 * (p % 8) + p / 8) % 94) + (94 * (p % 8) + p / 8) / 94 =
        8 * (p / 8) + p % 8 := by omega
    rw [e, interleave_bufBit _ (p % 8) (p / 8) (Nat.mod_lt _ (by decide)) (by omega),
      hbit2 _ (by omega), e2]

/-- Witness of C13 on the vector whose byte `i` is `i`. -/
theorem deinterleave_interleave_witness :
    (List.range 94).length = 94 ∧ (∀ x ∈ List.range 94, x < 256) ∧
    (deinterleave (interleave (List.range 94)) = List.range 94 ∧
    interleave (deinterleave (List.range 94)) = List.range 94 ∧
    (∀ r d, r < 8 → d < 94 →
      bufBit (interleave (List.range 94)) (8 * d + r) = bufBit (List.range 94) (94 * r + d))) :=
  ⟨List.length_range 94, fun x hx => Nat.lt_trans (List.mem_range.1 hx) (by decide),
    deinterleave_interleave (List.range 94) (List.length_range 94)
      (fun x hx => Nat.lt_trans (List.mem_range.1 hx) (by decide))⟩

/-! ## The packet splitter -/

theorem deinterleave_fold_length (ls : List Nat) :
    ∀ s : List Nat × List Nat × Nat,
    (ls.foldl deinterleave_step s).1.length = s.1.length := by
  induction ls with
  | nil =>
    intro s
    rfl
  | cons i rest ih =>
    intro s
    rw [List.foldl_cons, ih]
    simp only [deinterleave_step, List.length_set]

theorem deinterleave_length (pkt : List Nat) : (deinterleave pkt).length = pkt.length := by
  unfold deinterleave
  rw [deinterleave_fold_length]

/-- One pass of the inner loop of the splitter, `offset` bits of the buffer
`data0` having been read before: the pass reads bit `offset` of `data0` and
stores it at bit `poffset` of the packet buffer. -/
theorem split_step_spec (data0 data pkt : List Nat) (off poff : Nat)
    (hb0 : ∀ c, data0.getD c 0 < 256) (hlen : data.length = data0.length)
    (hrel : ∀ c, data.getD c 0 = data0.getD c 0 >>> min 8 (off - 8 * c))
    (hin : off / 8 < data0.length) (hpin : poff / 8 < pkt.length) :
    ∃ data1 pkt1, split_step (data, pkt, off, poff) = some (data1, pkt1, off + 1, poff + 1) ∧
      data1.length = data0.length ∧
      (∀ c, data1.getD c 0 = data0.getD c 0 >>> min 8 (off + 1 - 8 * c)) ∧
      pkt1.length = pkt.length ∧
      ∀ q, bufBit pkt1 q = if q = poff then bufBit data0 off else bufBit pkt q := by
  have h3 : off >>> 3 = off / 8 := by rw [Nat.shiftRight_eq_div_pow]
  have hget : data[off / 8]? = some (data.getD (off / 8) 0) :=
    getElem?_eq_some_getD data _ (by rw [hlen]; exact hin)
  obtain ⟨p1, hw, hl, hbit⟩ := rbits_one pkt poff (data.getD (off / 8) 0 &&& 1) hpin
  have hv : data.getD (off / 8) 0 = data0.getD (off / 8) 0 >>> (off % 8) := by
    rw [hrel (off / 8)]
    congr 1
    omega
  refine ⟨data.set (off / 8) ((data.getD (off / 8) 0 >>> 1) % 2 ^ 8), p1, ?_, ?_, ?_, hl, ?_⟩
  · simp only [split_step, h3, hget, hw]
  · rw [List.length_set, hlen]
  · intro c
    rw [getD_set]
    by_cases hc : c = off / 8
    · rw [if_pos ⟨hc, by rw [hlen]; exact hin⟩, hv, ← Nat.shiftRight_add, hc]
      have e : min 8 (off + 1 - 8 * (off / 8)) = off % 8 + 1 := by omega
      rw [e]
      exact Nat.mod_eq_of_lt (shiftRight_lt _ _ (hb0 _))
    · rw [if_neg (fun e => hc e.1), hrel c]
      congr 1
      omega
  · intro q
    rw [hbit q]
    by_cases hq : q = poff
    · rw [if_pos hq, if_pos hq, Nat.testBit_and, hv, Nat.testBit_shiftRight]
      unfold bufBit
      simp
    · rw [if_neg hq, if_neg hq]

/-- The inner loop of the splitter run `m` times: it moves the bits
`off, ..., off + m - 1` of `data0` to the bits `poff, ..., poff + m - 1` of the
packet buffer, in order. -/
theorem split_loop_spec (data0 : List Nat) (hb0 : ∀ c, data0.getD c 0 < 256) (m : Nat) :
    ∀ (data pkt : List Nat) (off poff : Nat), data.length = data0.length →
    (∀ c, data.getD c 0 = data0.getD c 0 >>> min 8 (off - 8 * c)) →
    off + m ≤ 8 * data0.length → poff + m ≤ 8 * pkt.length →
    ∃ data1 pkt1, iterM split_step m (data, pkt, off, poff) =
        some (data1, pkt1, off + m, poff + m) ∧
      data1.length = data0.length ∧
      (∀ c, data1.getD c 0 = data0.getD c 0 >>> min 8 (off + m - 8 * c)) ∧
      pkt1.length = pkt.length ∧
      ∀ q, bufBit pkt1 q =
        if poff ≤ q ∧ q < poff + m then bufBit data0 (off + (q - poff)) else bufBit pkt q := by
  induction m with
  | zero =>
    intro data pkt off poff hlen hrel _ _
    refine ⟨data, pkt, rfl, hlen, hrel, rfl, fun q => ?_⟩
    rw [if_neg (by omega)]
  | succ m ih =>
    intro data pkt off poff hlen hrel hin hpin
    obtain ⟨d1, p1, hs, hl1, hr1, hp1, hb1⟩ :=
      split_step_spec data0 data pkt off poff hb0 hlen hrel (by omega) (by omega)
    obtain ⟨d2, p2, hs2, hl2, hr2, hp2, hb2⟩ :=
      ih d1 p1 (off + 1) (poff + 1) hl1 hr1 (by omega) (by rw [hp1]; omega)
    refine ⟨d2, p2, ?_, hl2, ?_, by rw [hp2, hp1], fun q => ?_⟩
    · rw [iterM_succ, hs, Option.some_bind, hs2]
      have e1 : off + 1 + m = off + (m + 1) := by omega
      have e2 : poff + 1 + m = poff + (m + 1) := by omega
      rw [e1, e2]
    · intro c
      rw [hr2 c]
      have e1 : off + 1 + m = off + (m + 1) := by omega
      rw [e1]
    · rw [hb2 q, hb1 q]
      by_cases h1 : q = poff
      · subst h1
        rw [if_neg (by omega), if_pos rfl, if_pos (by omega), Nat.sub_self, Nat.add_zero]
      · rw [if_neg h1]
        by_cases h2 : poff + 1 ≤ q ∧ q < poff + 1 + m
        · rw [if_pos h2, if_pos (by omega)]
          congr 1
          omega
        · rw [if_neg h2, if_neg (by omega)]

/-- The inner loop of the splitter for one packet: bit `k` of the packet
buffer, `k = 0..750`, becomes bit `off + k` of the bitstream. -/
theorem split_packet_spec (data0 : List Nat) (hb0 : ∀ c, data0.getD c 0 < 256)
    (data pkt : List Nat) (off : Nat) (hlen : data.length = data0.length)
    (hrel : ∀ c, data.getD c 0 = data0.getD c 0 >>> min 8 (off - 8 * c))
    (hin : off + 751 ≤ 8 * data0.length) (hpkt : pkt.length = 94) :
    ∃ data1 pkt1, split_packet (data, pkt, off) = some (data1, pkt1, off + 751) ∧
      data1.length = data0.length ∧
      (∀ c, data1.getD c 0 = data0.getD c 0 >>> min 8 (off + 751 - 8 * c)) ∧
      pkt1.length = 94 ∧
      (∀ k, k < 751 → bufBit pkt1 k = bufBit data0 (off + k)) ∧
      (∀ q, 751 ≤ q → bufBit pkt1 q = bufBit pkt q) := by
  obtain ⟨d1, p1, hs, hl1, hr1, hp1, hb1⟩ :=
    split_loop_spec data0 hb0 751 data pkt off 0 hlen hrel hin (by rw [hpkt]; decide)
  refine ⟨d1, p1, ?_, hl1, hr1, by rw [hp1, hpkt], fun k hk => ?_, fun q hq => ?_⟩
  · unfold split_packet
    simp only [hs, Option.map_some', Nat.zero_add]
  · rw [hb1 k, if_pos (by omega), Nat.sub_zero]
  · rw [hb1 q, if_neg (by omega)]

/-- The packet loop of `decode_frame` run `n` times on a bitstream buffer that
holds the bits it reads: it returns, has read `751 * n` bits and has recorded
`n` more packets of 94 bytes. -/
theorem packets_loop_spec (data0 : List Nat) (hb0 : ∀ c, data0.getD c 0 < 256) (n : Nat) :
    ∀ (data pkt : List Nat) (off : Nat) (acc : List (List Nat)),
    data.length = data0.length →
    (∀ c, data.getD c 0 = data0.getD c 0 >>> min 8 (off - 8 * c)) →
    pkt.length = 94 → off + 751 * n ≤ 8 * data0.length →
    ∃ data1 pkt1 acc1, iterM packet_pass n (data, pkt, off, acc) =
        some (data1, pkt1, off + 751 * n, acc1) ∧
      data1.length = data0.length ∧
      (∀ c, data1.getD c 0 = data0.getD c 0 >>> min 8 (off + 751 * n - 8 * c)) ∧
      pkt1.length = 94 ∧ acc1.length = acc.length + n ∧
      ∀ p, p ∈ acc1 → p ∈ acc ∨ p.length = 94 := by
  induction n with
  | zero =>
    intro data pkt off acc hlen hrel hpkt _
    exact ⟨data, pkt, acc, rfl, hlen, hrel, hpkt, rfl, fun p hp => Or.inl hp⟩
  | succ n ih =>
    intro data pkt off acc hlen hrel hpkt hin
    obtain ⟨d1, p1, hs, hl1, hr1, hp1, _, _⟩ :=
      split_packet_spec data0 hb0 data pkt off hlen hrel (by omega) hpkt
    have hdl : (deinterleave p1).length = 94 := by rw [deinterleave_length, hp1]
    have hpass : packet_pass (data, pkt, off, acc) =
        some (d1, deinterleave p1, off + 751, acc ++ [deinterleave p1]) := by
      simp only [packet_pass, hs]
    obtain ⟨d2, p2, a2, hs2, hl2, hr2, hp2, ha2, hm2⟩ :=
      ih d1 (deinterleave p1) (off + 751) (acc ++ [deinterleave p1]) hl1 hr1 hdl (by omega)
    have e : off + 751 + 751 * n = off + 751 * (n + 1) := by omega
    refine ⟨d2, p2, a2, ?_, hl2, ?_, hp2, ?_, fun p hp => ?_⟩
    · rw [iterM_succ, hpass, Option.some_bind, hs2, e]
    · intro c
      rw [hr2 c, e]
    · rw [ha2, List.length_append, List.length_singleton]
      omega
    · rcases hm2 p hp with h | h
      · rcases List.mem_append.1 h with h1 | h1
        · exact Or.inl h1
        · rw [List.mem_singleton.1 h1]
          exact Or.inr hdl
      · exact Or.inr h

theorem packet_pass_count (n : Nat) :
    ∀ (s t : List Nat × List Nat × Nat × List (List Nat)),
    iterM packet_pass n s = some t → t.2.2.2.length = s.2.2.2.length + n := by
  induction n with
  | zero =>
    intro s t h
    have e : t = s := (Option.some.inj h).symm
    subst e
    rfl
  | succ n ih =>
    intro s t h
    rw [iterM_succ] at h
    obtain ⟨s1, hs1, ht⟩ := Option.bind_eq_some.1 h
    have h1 : s1.2.2.2.length = s.2.2.2.length + 1 := by
      unfold packet_pass at hs1
      cases hsp : split_packet (s.1, s.2.1, s.2.2.1) with
      | none =>
        rw [hsp] at hs1
        exact Option.noConfusion hs1
      | some u =>
        rw [hsp] at hs1
        have e := (Option.some.inj hs1).symm
        subst e
        simp only [List.length_append, List.length_singleton]
    rw [ih s1 t ht, h1]
    omega

theorem decode_lines_height_one (prbs data frame : List Nat) (width : Int) :
    decode_lines prbs data frame width 1 = some (data, 0) := by
  rw [decode_lines_eq]
  rfl

set_option maxRecDepth 100000 in
/-- C14, as stated, fails: a raster of 13 columns and 1 row, far below the
minimum height, is not rejected. The line loop returns normally with an empty
bitstream, and the packet loop starts slicing packet 0 out of the 12-byte
buffer: 96 bits are moved into the packet buffer, and the next pass reads
outside the buffer. No step returns an error. -/
theorem no_height_check_counterexample :
    (1 : Int) - 1 < 623 ∧
    decode_lines prbs_init (List.replicate 12 0xA5) (List.replicate 13 0x80) 13 1 =
      some (List.replicate 12 0xA5, 0) ∧
    iterM split_step 96 (List.replicate 12 0xA5, List.replicate 94 0, 0, 0) =
      some (List.replicate 12 0, List.replicate 12 0xA5 ++ List.replicate 82 0, 96, 96) ∧
    split_step (List.replicate 12 0, List.replicate 12 0xA5 ++ List.replicate 82 0, 96, 96) =
      none := by
  refine ⟨by decide, decode_lines_height_one _ _ _ _, by decide, by decide⟩

/-- C14, amended. `decode_frame` has no height check and no error result.
Whatever the raster height, its packet loop runs `MAC_PACKETS = 82` times: a
run of the loop that returns has produced exactly 82 packets, and the loop does
return, each packet a 94-byte buffer, whenever the `82 * 751 = 61582` bits it
reads lie inside the bitstream buffer. A raster of height 1 passes the line
loop with the write offset 0. -/
theorem packet_loop_count (data pkt : List Nat) (hb : ∀ x ∈ data, x < 256)
    (hin : 82 * 751 ≤ 8 * data.length) (hpkt : pkt.length = 94) :
    (∃ ps, split_packets data pkt = some ps ∧ ps.length = 82 ∧ ∀ p ∈ ps, p.length = 94) ∧
    (∀ (d p : List Nat) (ps : List (List Nat)), split_packets d p = some ps → ps.length = 82) ∧
    (∀ (prbs d frame : List Nat) (w : Int), decode_lines prbs d frame w 1 = some (d, 0)) := by
  refine ⟨?_, fun d p ps h => ?_, fun prbs d frame w => decode_lines_height_one prbs d frame w⟩
  · obtain ⟨d1, p1, a1, hs, _, _, _, ha, hm⟩ :=
      packets_loop_spec data (fun c => getD_lt_of_forall data hb c) 82 data pkt 0 [] rfl
        (fun c => by
          have e : min 8 (0 - 8 * c) = 0 := by omega
          rw [e]
          rfl)
        hpkt (by omega)
    refine ⟨a1, ?_, by rw [ha]; rfl, fun p hp => ?_⟩
    · unfold split_packets
      rw [hs]
      rfl
    · rcases hm p hp with h | h
      · exact absurd h (List.not_mem_nil p)
      · exact h
  · unfold split_packets at h
    obtain ⟨t, ht, hps⟩ := Option.map_eq_some'.1 h
    have := packet_pass_count 82 _ t ht
    rw [← hps, this]
    rfl

/-- Witness of the amended C14 on a zeroed bitstream buffer of 7698 bytes, the
least size that holds the 61582 bits. -/
theorem packet_loop_count_witness :
    (∀ x ∈ List.replicate 7698 0, x < 256) ∧ 82 * 751 ≤ 8 * (List.replicate 7698 0).length ∧
    (List.replicate 94 0).length = 94 ∧
    ((∃ ps, split_packets (List.replicate 7698 0) (List.replicate 94 0) = some ps ∧
      ps.length = 82 ∧ ∀ p ∈ ps, p.length = 94) ∧
    (∀ (d p : List Nat) (ps : List (List Nat)), split_packets d p = some ps → ps.length = 82) ∧
    (∀ (prbs d frame : List Nat) (w : Int), decode_lines prbs d frame w 1 = some (d, 0))) :=
  ⟨fun x hx => by rw [List.eq_of_mem_replicate hx]; decide,
    by rw [List.length_replicate]; decide, List.length_replicate _ _,
    packet_loop_count (List.replicate 7698 0) (List.replicate 94 0)
      (fun x hx => by rw [List.eq_of_mem_replicate hx]; decide)
      (by rw [List.length_replicate]; decide) (List.length_replicate _ _)⟩

/-! ## Writing and reading back the bitstream -/

theorem rbits_one_eq (data : List Nat) (p v : Nat) (hin : p / 8 < data.length) :
    _rbits data p v 1 =
      some (data.set (p / 8)
          (if v &&& 2 ^ 0 ≠ 0 then
            (data.getD (p / 8) 0 ||| (1 <<< (p &&& 7)) % 2 ^ 8) % 2 ^ 8
          else (data.getD (p / 8) 0 &&& bnot32 ((1 <<< (p &&& 7)) % 2 ^ 8)) % 2 ^ 8),
        p + 1) := by
  have hm : (1 <<< (1 - 1)) % 2 ^ 64 = 2 ^ 0 := by decide
  unfold _rbits
  simp only [hm, iterM, rbits_step_eq (2 ^ 0) data p v hin, Option.some_bind, Option.map_some']

theorem rbits_one_bytes (data : List Nat) (p v : Nat) (r : List Nat × Nat)
    (h : _rbits data p v 1 = some r) (hb : ∀ c, data.getD c 0 < 256) :
    ∀ c, r.1.getD c 0 < 256 := by
  have hin := rbits_one_inside data p v r h
  rw [rbits_one_eq data p v hin] at h
  have e := (Option.some.inj h).symm
  subst e
  intro c
  simp only
  rw [getD_set]
  by_cases hc : c = p / 8 ∧ p / 8 < data.length
  · rw [if_pos hc]
    split_ifs <;> exact Nat.mod_lt _ (by decide)
  · rw [if_neg hc]
    exact hb c

/-- Successive single-bit `_rbits` calls that fit in the buffer return, and
store bit `i` of the list at stream position `off + i`, leaving the other bits
and the length of the buffer unchanged. -/
theorem write_bits_spec (bs : List Nat) :
    ∀ (data0 : List Nat) (off : Nat), off + bs.length ≤ 8 * data0.length →
    ∃ data, write_bits data0 bs off = some data ∧ data.length = data0.length ∧
      ((∀ c, data0.getD c 0 < 256) → ∀ c, data.getD c 0 < 256) ∧
      ∀ q, bufBit data q =
        if off ≤ q ∧ q < off + bs.length then (bs.getD (q - off) 0).testBit 0
        else bufBit data0 q := by
  induction bs with
  | nil =>
    intro data0 off _
    refine ⟨data0, rfl, rfl, fun h => h, fun q => ?_⟩
    rw [if_neg (by simp only [List.length_nil]; omega)]
  | cons b rest ih =>
    intro data0 off hfit
    rw [List.length_cons] at hfit
    obtain ⟨d1, hw, hl1, hb1⟩ := rbits_one data0 off b (by omega)
    obtain ⟨d2, hw2, hl2, hby2, hb2⟩ := ih d1 (off + 1) (by rw [hl1]; omega)
    refine ⟨d2, ?_, by rw [hl2, hl1], fun h0 => hby2 (rbits_one_bytes data0 off b _ hw h0),
      fun q => ?_⟩
    · simp only [write_bits, hw, hw2]
    · rw [hb2 q, hb1 q, List.length_cons]
      by_cases h1 : q = off
      · subst h1
        rw [if_neg (by omega), if_pos rfl, if_pos (by omega), Nat.sub_self, List.getD_cons_zero]
      · rw [if_neg h1]
        by_cases h2 : off + 1 ≤ q ∧ q < off + 1 + rest.length
        · rw [if_pos h2, if_pos (by omega)]
          have e : q - off = (q - (off + 1)) + 1 := by omega
          rw [e, List.getD_cons_succ]
        · rw [if_neg h2, if_neg (by omega)]

theorem bit_toNat (b : Nat) (hb : b ≤ 1) : (b.testBit 0).toNat = b := by
  have h : ∀ b, b ≤ 1 → (b.testBit 0).toNat = b := by decide
  exact h b hb

theorem getD_le_one (bs : List Nat) (hbits : ∀ b ∈ bs, b ≤ 1) (i : Nat) : bs.getD i 0 ≤ 1 := by
  rw [List.getD_eq_getElem?_getD]
  by_cases h : i < bs.length
  · rw [List.getElem?_eq_getElem h]
    exact hbits _ (List.getElem_mem h)
  · rw [List.getElem?_eq_none (Nat.le_of_not_lt h)]
    decide

/-- C19. The packet splitter reads back exactly the bits the sampler wrote, in
order: when the bits `b_0 .. b_(N-1)`, `N >= 82 * 751`, are written into the
buffer by successive single-bit `_rbits` calls at the offsets `0 .. N-1`, the
sequential destructive read of the splitter yields `b_o` at step `o`, so that
bit `k` (`k` in 0..750) of packet `l` (`l` in 0..81), before deinterleaving, is
`b_(751 l + k)`, also when the packet boundary falls inside a byte. -/
theorem splitter_reads_written_bits (data0 pkt bs : List Nat)
    (hb0 : ∀ x ∈ data0, x < 256) (hbits : ∀ b ∈ bs, b ≤ 1)
    (hN : 82 * 751 ≤ bs.length) (hfit : bs.length ≤ 8 * data0.length)
    (hpkt : pkt.length = 94) (l k : Nat) (hl : l < 82) (hk : k < 751) :
    ∃ data s t, write_bits data0 bs 0 = some data ∧
      (∀ o, o < bs.length → (bufBit data o).toNat = bs.getD o 0) ∧
      iterM packet_pass l (data, pkt, 0, []) = some s ∧ s.2.2.1 = 751 * l ∧
      split_packet (s.1, s.2.1, s.2.2.1) = some t ∧
      (bufBit t.2.1 k).toNat = bs.getD (751 * l + k) 0 := by
  obtain ⟨data, hw, hlen, hby, hbit⟩ := write_bits_spec bs data0 0 (by omega)
  have hdb : ∀ c, data.getD c 0 < 256 := hby (fun c => getD_lt_of_forall data0 hb0 c)
  have hread : ∀ o, o < bs.length → (bufBit data o).toNat = bs.getD o 0 := by
    intro o ho
    rw [hbit o, if_pos (by omega), Nat.sub_zero]
    exact bit_toNat _ (getD_le_one bs hbits o)
  obtain ⟨d1, p1, a1, hs, hl1, hr1, hp1, _, _⟩ :=
    packets_loop_spec data hdb l data pkt 0 [] rfl
      (fun c => by
        have e : min 8 (0 - 8 * c) = 0 := by omega
        rw [e]
        rfl)
      hpkt (by omega)
  rw [Nat.zero_add] at hs hr1
  obtain ⟨d2, p2, hs2, _, _, _, hb2, _⟩ :=
    split_packet_spec data hdb d1 p1 (751 * l) hl1 hr1 (by omega) hp1
  refine ⟨data, (d1, p1, 751 * l, a1), (d2, p2, 751 * l + 751), hw, hread, hs, rfl, hs2, ?_⟩
  show (bufBit p2 k).toNat = _
  rw [hb2 k hk]
  exact hread _ (by omega)

/-- Witness of C19: 61582 one-bits written into a zeroed buffer of 7698 bytes
and read back as the last bit of the last packet. -/
theorem splitter_reads_written_bits_witness :
    (∀ x ∈ List.replicate 7698 0, x < 256) ∧ (∀ b ∈ List.replicate 61582 1, b ≤ 1) ∧
    82 * 751 ≤ (List.replicate 61582 1).length ∧
    (List.replicate 61582 1).length ≤ 8 * (List.replicate 7698 0).length ∧
    (List.replicate 94 0).length = 94 ∧ 81 < 82 ∧ 750 < 751 ∧
    ∃ data s t, write_bits (List.replicate 7698 0) (List.replicate 61582 1) 0 = some data ∧
      (∀ o, o < (List.replicate 61582 1).length →
        (bufBit data o).toNat = (List.replicate 61582 1).getD o 0) ∧
      iterM packet_pass 81 (data, List.replicate 94 0, 0, []) = some s ∧ s.2.2.1 = 751 * 81 ∧
      split_packet (s.1, s.2.1, s.2.2.1) = some t ∧
      (bufBit t.2.1 750).toNat = (List.replicate 61582 1).getD (751 * 81 + 750) 0 :=
  ⟨fun x hx => by rw [List.eq_of_mem_replicate hx]; decide,
    fun b hb => by rw [List.eq_of_mem_replicate hb],
    by rw [List.length_replicate],
    by rw [List.length_replicate, List.length_replicate]; decide,
    List.length_replicate _ _, by decide, by decide,
    splitter_reads_written_bits (List.replicate 7698 0) (List.replicate 94 0)
      (List.replicate 61582 1)
      (fun x hx => by rw [List.eq_of_mem_replicate hx]; decide)
      (fun b hb => by rw [List.eq_of_mem_replicate hb])
      (by rw [List.length_replicate])
      (by rw [List.length_replicate, List.length_replicate]; decide)
      (List.length_replicate _ _) 81 750 (by decide) (by decide)⟩

end D2Mac
